import Mathlib

/-!
A shallow embedding of the lockfile subsystem of the `orogene` package
manager (`crates/node-maintainer/src/lockfile.rs`), together with theorems
checking the natural-language specification of that subsystem against the
code.

Modelling conventions:
* Rust `UniCase<String>` (case-insensitive, display-preserving strings) is
  modelled as a plain `String` together with explicit case-folded
  comparison (`Oro.fold`, ASCII folding via `String.toLower`).
* Rust `IndexMap` (insertion-ordered map) is modelled as an association
  `List`, with `IndexMap::insert` semantics (an existing key keeps its
  position and its original key text; the value is replaced).
* KDL documents are modelled structurally (`KNode`, `KDoc`): the codec
  claims are about the document tree, and `kdl::KdlDocument` round-trips
  structurally through text.  `doc.fmt()` / `set_leading` only affect
  text formatting and are not modelled.
* External value types (`node_semver::Version`, `ssri::Integrity`, URLs)
  are modelled as canonical strings paired with a decidable well-formedness
  check, so that the external contract `parse (display v) = ok v` holds by
  construction.
* `u64`/`i64` arithmetic is explicit over `Nat`/`Int` (`Oro.toI64`).
-/

namespace Oro

/-! ### String primitives

Character-list implementations of the string operations the source uses
(`to_lowercase` folding, lexicographic comparison, `split`,
`starts_with`), written by structural recursion so that concrete
instances evaluate inside the kernel. -/

/-- ASCII lower-casing of one character. -/
def lowerChar (c : Char) : Char :=
  if 65 ≤ c.toNat ∧ c.toNat ≤ 90 then Char.ofNat (c.toNat + 32) else c

/-- Model of `unicase` case folding (ASCII folding, as used by
`UniCase` comparison and hashing). -/
def fold (s : String) : String := String.mk (s.data.map lowerChar)

/-- Case-insensitive equality of strings, the equality of `UniCase<String>`. -/
def uciEq (a b : String) : Bool := fold a == fold b

/-- Lexicographic (codepoint) order on character lists; for UTF-8 this
agrees with Rust's byte-wise `str` ordering. -/
def leChars : List Char → List Char → Bool
  | [], _ => true
  | _ :: _, [] => false
  | a :: as, b :: bs =>
    if a.toNat < b.toNat then true
    else if b.toNat < a.toNat then false
    else leChars as bs

/-- `String` `Ord` (byte-wise comparison). -/
def strLe (a b : String) : Bool := leChars a.data b.data

/-- Case-insensitive order on strings: the `Ord` of `UniCase<String>`
(comparison of the case-folded forms). -/
def uciLe (a b : String) : Prop := strLe (fold a) (fold b) = true

instance : DecidableRel uciLe := fun a b => by
  unfold uciLe; infer_instance

/-- Prefix test on character lists. -/
def isPre : List Char → List Char → Bool
  | [], _ => true
  | _ :: _, [] => false
  | a :: as, b :: bs => a == b && isPre as bs

/-- `str::starts_with`. -/
def strStartsWith (s p : String) : Bool := isPre p.data s.data

/-- `str::split` on a (nonempty) separator, fuelled structural recursion:
leftmost non-overlapping matches, keeping empty pieces. -/
def splitChars (sep : List Char) : Nat → List Char → List (List Char)
  | 0, l => [l]
  | _ + 1, [] => [[]]
  | fuel + 1, c :: rest =>
    if isPre sep (c :: rest) then
      [] :: splitChars sep fuel ((c :: rest).drop sep.length)
    else
      match splitChars sep fuel rest with
      | [] => [[c]]
      | piece :: more => (c :: piece) :: more

/-- `str::split` (for the nonempty separators used by the source). -/
def strSplitOn (s sep : String) : List String :=
  if sep.data.isEmpty then [s]
  else (splitChars sep.data (s.data.length + 1) s.data).map String.mk

/-- `str` slicing from a character offset. -/
def strDrop (s : String) (n : Nat) : String := String.mk (s.data.drop n)

/-- A KDL value (`kdl::KdlValue`).  Integer values are `i64` in the `kdl`
crate; we carry `Int` and keep range facts explicit where they matter. -/
inductive KVal where
  | str (s : String)
  | int (i : Int)
  | boolean (b : Bool)
  | null
deriving DecidableEq, Repr

/-- `KdlValue::is_string`. -/
def KVal.isString : KVal → Bool
  | .str _ => true
  | _ => false

/-- `KdlValue::as_string`. -/
def KVal.asString : KVal → Option String
  | .str s => some s
  | _ => none

/-- `KdlValue::as_i64`. -/
def KVal.asI64 : KVal → Option Int
  | .int i => some i
  | _ => none

/-- A node entry (`kdl::KdlEntry`): an optional property name and a value.
`pname = none` means a positional argument. -/
structure KEntry where
  pname : Option String
  value : KVal
deriving DecidableEq, Repr

/-- A KDL node (`kdl::KdlNode`): name, entries, optional children document.
(No derived decidable equality: closed facts about concrete nodes are
settled by `rfl`.) -/
inductive KNode where
  | mk (name : String) (entries : List KEntry) (children : Option (List KNode))

/-- A KDL document (`kdl::KdlDocument`) is its list of nodes. -/
abbrev KDoc := List KNode

def KNode.name : KNode → String
  | .mk n _ _ => n

def KNode.entries : KNode → List KEntry
  | .mk _ e _ => e

def KNode.children : KNode → Option KDoc
  | .mk _ _ c => c

/-- `node.children().cloned().unwrap_or_else(KdlDocument::new)`. -/
def KNode.childrenOrEmpty (n : KNode) : KDoc := n.children.getD []

/-- The positional arguments of a node, in order. -/
def KNode.args (n : KNode) : List KVal :=
  (n.entries.filter fun e => e.pname.isNone).map fun e => e.value

/-- `KdlNode::get(0)`: the first positional argument's value. -/
def KNode.firstArg (n : KNode) : Option KVal := n.args.head?

/-- `KdlDocument::get`: the first node with the given (exact) name. -/
def docGet (name : String) (doc : KDoc) : Option KNode :=
  doc.find? fun n => n.name == name

/-- `KdlDocument::get_arg`: first argument of the first node with the name. -/
def docGetArg (name : String) (doc : KDoc) : Option KVal :=
  (docGet name doc).bind KNode.firstArg

/-! ### Models of external value types

`node_semver::Version`, `ssri::Integrity` and `url::Url` are external
crates.  Each is modelled as the subtype of its canonical display strings,
so that the external contract `parse (display v) = some v` holds by
construction, and parsing an arbitrary string is a decidable validation. -/

/-- Decidable stand-in for "parses as a `node_semver::Version`". -/
def semverOk (s : String) : Bool := s.data.any Char.isDigit

/-- A parsed semantic version, identified with its canonical display
string (`node_semver::Version`: `Display` then `parse` is the identity). -/
abbrev SemVer : Type := {s : String // semverOk s = true}

/-- `node_semver` parse (`val.parse::<Version>()`). -/
def parseSemVer (s : String) : Option SemVer :=
  if h : semverOk s = true then some ⟨s, h⟩ else none

/-- Decidable stand-in for "parses as an `ssri::Integrity`"
(an `algo-digest` shaped string). -/
def integrityOk (s : String) : Bool := 2 ≤ (strSplitOn s "-").length

/-- A parsed integrity descriptor, identified with its canonical display
string (`ssri::Integrity`). -/
abbrev Integrity : Type := {s : String // integrityOk s = true}

/-- `ssri` parse (`i.parse::<Integrity>()`). -/
def parseIntegrity (s : String) : Option Integrity :=
  if h : integrityOk s = true then some ⟨s, h⟩ else none

/-- Decidable stand-in for "parses as a `url::Url`". -/
def urlOk (s : String) : Bool := 2 ≤ (strSplitOn s "://").length

/-- A parsed URL, identified with its display string (`url::Url`). -/
abbrev Url : Type := {s : String // urlOk s = true}

/-- `url` parse (`url.parse::<Url>()`). -/
def parseUrl (s : String) : Option Url :=
  if h : urlOk s = true then some ⟨s, h⟩ else none

/-- Plain string equality, the key equality of `String`-keyed maps. -/
def strEq (a b : String) : Bool := a == b

/-! ### IndexMap model

`indexmap::IndexMap` is modelled as an association list.  `insert` keeps
an existing key in place (retaining the originally stored key text) and
replaces its value; a new key is appended.  Key equality is a parameter:
`uciEq` for `UniCase<String>` keys, `==` for plain `String` keys. -/

/-- `IndexMap::insert`. -/
def imapInsert (eq : String → String → Bool) (k : String) (v : α) :
    List (String × α) → List (String × α)
  | [] => [(k, v)]
  | (k1, v1) :: rest =>
    if eq k k1 then (k1, v) :: rest else (k1, v1) :: imapInsert eq k v rest

/-- `IndexMap::get`. -/
def imapGet (eq : String → String → Bool) (k : String) :
    List (String × α) → Option α
  | [] => none
  | (k1, v1) :: rest => if eq k k1 then some v1 else imapGet eq k rest

/-- Collecting an iterator of pairs into an `IndexMap`. -/
def imapOfList (eq : String → String → Bool) (l : List (String × α)) :
    List (String × α) :=
  l.foldl (fun m p => imapInsert eq p.1 p.2 m) []

/-! ### The data model (`Lockfile`, `LockfileNode`) -/

/-- `node_maintainer::lockfile::LockfileNode`.  `UniCase<String>` fields
carry their display string; dependency maps are insertion-ordered
`String`-keyed maps. -/
structure LockfileNode where
  name : String
  is_root : Bool
  path : List String
  resolved : Option String
  version : Option SemVer
  integrity : Option Integrity
  dependencies : List (String × String)
  dev_dependencies : List (String × String)
  peer_dependencies : List (String × String)
  optional_dependencies : List (String × String)
deriving DecidableEq

/-- `node_maintainer::lockfile::Lockfile`.  `version` is a `u64`
(kept as `Nat`; the `u64` range is explicit where it matters).
`packages` is an `IndexMap<UniCase<String>, LockfileNode>`. -/
structure Lockfile where
  version : Nat
  root : LockfileNode
  packages : List (String × LockfileNode)
deriving DecidableEq

/-- `serde`-level `NpmPackageLockEntry` (all fields `#[serde(default)]`). -/
structure NpmEntry where
  name : Option String
  version : Option String
  resolved : Option String
  integrity : Option String
  dependencies : List (String × String)
  dev_dependencies : List (String × String)
  optional_dependencies : List (String × String)
  peer_dependencies : List (String × String)
deriving DecidableEq

/-- `serde`-level `NpmPackageLock`.  `lockfile_version` is carried as the
JSON integer (`Int`); Rust deserializes it into `Option<usize>`, and
`serdeUsize` below models that bound check. -/
structure NpmPackageLock where
  lockfile_version : Option Int
  requires : Bool
  packages : List (String × NpmEntry)
deriving DecidableEq

/-- `NodeMaintainerError` variants reachable from the lockfile layer
(`crates/node-maintainer/src/error.rs` is not part of the sources; the
variants and their payloads are those used by `lockfile.rs`). -/
inductive NmError where
  | invalidLockfileVersion
  | kdlLockMissingRoot (doc : KDoc)
  | kdlLockMissingName (node : KNode)
  | kdlLockfileIntegrityParseError (node : KNode)
  | semverParseError (s : String)
  | npmLockMissingRoot (lock : NpmPackageLock)
  | npmLockMissingName (entry : NpmEntry)
  | npmLockfileIntegrityParseError (entry : NpmEntry)
  | serdeJsonError
  | missingVersion
  | urlParseError (url : String)
  | packageSpecError (s : String)
  | aliasUnreachablePanic

/-- The canonical path key: `path` segments joined with `"/node_modules/"`
(`path.iter().map(to_string).join("/node_modules/")`). -/
def joinKey (path : List String) : String :=
  String.intercalate "/node_modules/" path

/-! ### Document codec: serialization (`Lockfile::to_kdl`) -/

/-- `u64 as i64`: two's-complement reinterpretation. -/
def toI64 (v : Nat) : Int :=
  if v % 2 ^ 64 < 2 ^ 63 then ((v % 2 ^ 64 : Nat) : Int)
  else ((v % 2 ^ 64 : Nat) : Int) - 2 ^ 64

/-- One dependency child: a node named by the dependency, holding the
requirement string as its single argument. -/
def mkDepNode (p : String × String) : KNode :=
  KNode.mk p.1 [⟨none, KVal.str p.2⟩] none

/-- The dependency-children sort order: `sort_by_key` on the node name
(plain `String` order). -/
def depNameLe (a b : KNode) : Prop := strLe a.name b.name = true

instance : DecidableRel depNameLe := fun a b => by
  unfold depNameLe; infer_instance

/-- `LockfileNode::to_kdl_deps`: build one child per dependency in map
order, then stably sort the children by node name. -/
def toKdlDeps (tname : String) (deps : List (String × String)) : KNode :=
  KNode.mk tname [] (some (List.insertionSort depNameLe (deps.map mkDepNode)))

def verNode (v : SemVer) : KNode :=
  KNode.mk "version" [⟨none, KVal.str v.val⟩] none

def resolvedNode (r : String) : KNode :=
  KNode.mk "resolved" [⟨none, KVal.str r⟩] none

def integrityNode (i : Integrity) : KNode :=
  KNode.mk "integrity" [⟨none, KVal.str i.val⟩] none

/-- The positional path arguments of a serialized node. -/
def pathArgs (path : List String) : List KEntry :=
  path.map fun s => ⟨none, KVal.str s⟩

/-- The optional `version` child leaf. -/
def verPart (o : Option SemVer) : KDoc :=
  match o with
  | some v => [verNode v]
  | none => []

/-- The optional `resolved` child leaf and, only alongside it, the
optional `integrity` child leaf; nothing for the root
(`if let Some(resolved) { if !self.is_root { ... } }`). -/
def resPart (isRoot : Bool) (ro : Option String) (io : Option Integrity) :
    KDoc :=
  match ro with
  | some r =>
    if isRoot then []
    else
      resolvedNode r ::
        (match io with
         | some i => [integrityNode i]
         | none => [])
  | none => []

/-- One dependency block, omitted entirely when the map is empty. -/
def depPart (tname : String) (deps : List (String × String)) : KDoc :=
  if deps.isEmpty then [] else [toKdlDeps tname deps]

/-- The children pushed by `LockfileNode::to_kdl`, in source push order:
`version`, `resolved`/`integrity`, then the four dependency blocks. -/
def serializedChildren (e : LockfileNode) : KDoc :=
  verPart e.version ++
    (resPart e.is_root e.resolved e.integrity ++
      (depPart "dependencies" e.dependencies ++
        (depPart "dev-dependencies" e.dev_dependencies ++
          (depPart "peer-dependencies" e.peer_dependencies ++
            depPart "optional-dependencies" e.optional_dependencies))))

/-- `LockfileNode::to_kdl`.  The node is named `root` or `pkg` by
`is_root`, carries the path segments as positional arguments, and
`ensure_children` is modelled by materialising `children` only when at
least one child was pushed. -/
def LockfileNode.to_kdl (e : LockfileNode) : KNode :=
  KNode.mk (if e.is_root then "root" else "pkg") (pathArgs e.path)
    (if (serializedChildren e).isEmpty then none
     else some (serializedChildren e))

/-- The `pkg`-node sort order: `sort_by` on the `UniCase` key. -/
def pkgKeyLe (a b : String × LockfileNode) : Prop := uciLe a.1 b.1

instance : DecidableRel pkgKeyLe := fun a b => by
  unfold pkgKeyLe uciLe; infer_instance

/-- The stable sort of the packages list by canonical key. -/
def sortPackages (l : List (String × LockfileNode)) :
    List (String × LockfileNode) :=
  List.insertionSort pkgKeyLe l

/-- `Lockfile::to_kdl`: the `lockfile-version` leaf (with the `u64 as i64`
cast), the root node, then every package node sorted by key.
(`set_leading` and `fmt` only affect text formatting.) -/
def Lockfile.to_kdl (lf : Lockfile) : KDoc :=
  KNode.mk "lockfile-version" [⟨none, KVal.int (toI64 lf.version)⟩] none ::
    lf.root.to_kdl ::
    (sortPackages lf.packages).map fun p => p.2.to_kdl

/-! ### Document codec: parsing (`Lockfile::from_kdl`) -/

/-- `LockfileNode::from_kdl_deps`: the children of the block node of the
given fixed name, one dependency per child, requirement defaulting
to `"*"`, inserted in document order. -/
def fromKdlDeps (children : KDoc) (tname : String) : List (String × String) :=
  match docGet tname children with
  | none => []
  | some node =>
    match node.children with
    | none => []
    | some ns =>
      ns.foldl
        (fun deps dep =>
          imapInsert strEq dep.name
            ((dep.firstArg.bind KVal.asString).getD "*") deps)
        []

/-- `LockfileNode::from_kdl`. -/
def LockfileNode.from_kdl (node : KNode) (is_root : Bool) :
    Except NmError LockfileNode := do
  let children := node.childrenOrEmpty
  let path : List String :=
    (node.entries.filter fun e => e.value.isString && e.pname.isNone).map
      fun e => e.value.asString.getD ""
  let name ←
    if is_root then pure ""
    else
      match path.getLast? with
      | some n => pure n
      | none => Except.error (NmError.kdlLockMissingName node)
  let integrity ←
    match (docGetArg "integrity" children).bind KVal.asString with
    | none => pure (none : Option Integrity)
    | some i =>
      match parseIntegrity i with
      | some x => pure (some x)
      | none => Except.error (NmError.kdlLockfileIntegrityParseError node)
  let version ←
    match (docGetArg "version" children).bind KVal.asString with
    | none => pure (none : Option SemVer)
    | some s =>
      match parseSemVer s with
      | some v => pure (some v)
      | none => Except.error (NmError.semverParseError s)
  let resolved := (docGetArg "resolved" children).bind KVal.asString
  pure
    { name := name
      is_root := is_root
      path := path
      resolved := resolved
      version := version
      integrity := integrity
      dependencies := fromKdlDeps children "dependencies"
      dev_dependencies := fromKdlDeps children "dev-dependencies"
      optional_dependencies := fromKdlDeps children "optional-dependencies"
      peer_dependencies := fromKdlDeps children "peer-dependencies" }

/-- The `pkg`-node collection of `Lockfile::from_kdl`: each top-level
`pkg` node parsed as a non-root entry and keyed by its joined path
(short-circuiting on the first error, as `collect::<Result<_, _>>`). -/
def collectPkgPairs (doc : KDoc) :
    Except NmError (List (String × LockfileNode)) :=
  (doc.filter fun n => n.name == "pkg").mapM fun n => do
    let node ← LockfileNode.from_kdl n false
    pure (joinKey node.path, node)

/-- `Lockfile::from_kdl` (on an already-parsed document; `IntoKdl` for a
`KdlDocument` is the identity).  Field evaluation order follows the
source: the packages collection first, then the version leaf, then the
root node. -/
def Lockfile.from_kdl (doc : KDoc) : Except NmError Lockfile := do
  let pairs ← collectPkgPairs doc
  let packages := imapOfList uciEq pairs
  let version ←
    match (docGetArg "lockfile-version" doc).bind KVal.asI64 with
    | none => pure 1
    | some i =>
      if 0 ≤ i then pure i.toNat
      else Except.error NmError.invalidLockfileVersion
  let root ←
    match docGet "root" doc with
    | none => Except.error (NmError.kdlLockMissingRoot doc)
    | some n => LockfileNode.from_kdl n true
  pure { version := version, root := root, packages := packages }

/-! ### Compatibility codec (`Lockfile::from_npm`) -/

/-- `serde` deserialization of a JSON integer into `usize` (64-bit):
rejects integers outside `[0, 2^64)`. -/
def serdeUsize (v : Int) : Option Nat :=
  if 0 ≤ v ∧ v < 2 ^ 64 then some v.toNat else none

/-- `LockfileNode::from_npm`. -/
def LockfileNode.from_npm (path_str : String) (npm : NpmEntry) :
    Except NmError LockfileNode := do
  let path := (strSplitOn ("/" ++ path_str) "/node_modules/").drop 1
  let name ←
    if path_str = "" then pure ""
    else
      match npm.name <|> path.getLast? with
      | some n => pure n
      | none => Except.error (NmError.npmLockMissingName npm)
  let integrity ←
    match npm.integrity with
    | none => pure (none : Option Integrity)
    | some i =>
      match parseIntegrity i with
      | some x => pure (some x)
      | none => Except.error (NmError.npmLockfileIntegrityParseError npm)
  let version ←
    match npm.version with
    | none => pure (none : Option SemVer)
    | some s =>
      match parseSemVer s with
      | some v => pure (some v)
      | none => Except.error (NmError.semverParseError s)
  pure
    { name := name
      is_root := path.isEmpty
      path := path
      resolved := npm.resolved
      version := version
      integrity := integrity
      dependencies := npm.dependencies
      dev_dependencies := npm.dev_dependencies
      optional_dependencies := npm.optional_dependencies
      peer_dependencies := npm.peer_dependencies }

/-- The packages collection of `Lockfile::from_npm` (every key of the
`packages` map, including the empty one, short-circuiting on error). -/
def collectNpmPairs (packages : List (String × NpmEntry)) :
    Except NmError (List (String × LockfileNode)) :=
  packages.mapM fun p => do
    let node ← LockfileNode.from_npm p.1 p.2
    pure (joinKey node.path, node)

/-- `Lockfile::from_npm`: `serde_json::from_str` (modelled here only by
the `lockfileVersion`-into-`Option<usize>` bound check, the single
numeric field), then the inner construction in source field order. -/
def Lockfile.from_npm (lock : NpmPackageLock) : Except NmError Lockfile := do
  let lv : Option Nat ←
    match lock.lockfile_version with
    | none => pure none
    | some v =>
      match serdeUsize v with
      | some n => pure (some n)
      | none => Except.error NmError.serdeJsonError
  let pairs ← collectNpmPairs lock.packages
  let packages := imapOfList uciEq pairs
  let version ←
    match lv with
    | none => pure 3
    | some n =>
      if n < 2 ^ 64 then pure n
      else Except.error NmError.invalidLockfileVersion
  let root ←
    match imapGet strEq "" lock.packages with
    | none => Except.error (NmError.npmLockMissingRoot lock)
    | some e => LockfileNode.from_npm "" e
  pure { version := version, root := root, packages := packages }

/-! ### Resolution reconstructor (`LockfileNode::to_package`)

`oro-package-spec` and `nassun` are external crates.  `PackageSpec` keeps
the four-way target dispatch of the source; parsing is modelled for the
`name@reference` strings `to_package` builds.  The client's suspending
`resolve` is the only observable external behaviour; `resolve_from` is a
pure constructor (spec: synchronous, no I/O, cannot fail).  `to_package`
additionally returns the number of live `resolve` calls it made. -/

/-- `oro_package_spec::PackageSpec` (the target kinds used by
`to_package`; a git spec is represented by its optional committish). -/
inductive PackageSpec where
  | dir (path : String)
  | npm (name : String) (requested : String)
  | git (committish : Option String)
  | alias (name : String) (spec : PackageSpec)
deriving DecidableEq

/-- `PackageSpec::target`: resolve aliases away. -/
def PackageSpec.target : PackageSpec → PackageSpec
  | .alias _ s => s.target
  | .dir p => .dir p
  | .npm n r => .npm n r
  | .git c => .git c

/-- `Display` for `PackageSpec` (the string handed to a live resolve). -/
def PackageSpec.toStr : PackageSpec → String
  | .dir p => "file:" ++ p
  | .npm n r => n ++ "@" ++ r
  | .git c =>
    "git" ++
      (match c with
       | some x => "#" ++ x
       | none => "")
  | .alias n s => n ++ "@npm:" ++ s.toStr

/-- The committish of a git reference string: the fragment after the
first hash sign, if any. -/
def gitCommittish (ref : String) : Option String :=
  match (strSplitOn ref "#").drop 1 with
  | [] => none
  | c => some (String.intercalate "#" c)

/-- Model of `oro-package-spec` parsing for the `name@reference` strings
built by `to_package`: split at the last at-sign; a `file:` reference is a
directory target, a `git`-prefixed reference a git target, anything else
a registry (npm) target. -/
def parsePackageSpec (s : String) : Except NmError PackageSpec :=
  let parts := strSplitOn s "@"
  match parts.getLast? with
  | none => Except.error (NmError.packageSpecError s)
  | some ref =>
    if parts.length < 2 then Except.error (NmError.packageSpecError s)
    else
      let name := String.intercalate "@" parts.dropLast
      if strStartsWith ref "file:" then Except.ok (PackageSpec.dir (strDrop ref 5))
      else if strStartsWith ref "git" then
        Except.ok (PackageSpec.git (gitCommittish ref))
      else Except.ok (PackageSpec.npm name ref)

/-- `nassun::PackageResolution` (the variants built by `to_package`). -/
inductive PackageResolution where
  | npmRes (name : String) (version : SemVer) (tarball : Url)
      (integrity : Option Integrity)
  | dirRes (name : String) (path : String)
  | gitRes (name : String) (committish : Option String)
deriving DecidableEq

/-- `nassun::Package`, reduced to what `to_package` determines. -/
structure Package where
  name : String
  resolution : PackageResolution
deriving DecidableEq

/-- `Nassun::resolve_from`: a pure constructor. -/
def resolveFrom (name : String) (res : PackageResolution) : Package :=
  { name := name, resolution := res }

/-- The external resolution client: only the suspending `resolve` is
client-determined behaviour. -/
structure Client where
  resolveLive : String → Except NmError Package

/-- The specifier string `to_package` builds from `resolved`/`version`
(the guarded match at its head); `none` means the early `Ok(None)`. -/
def LockfileNode.specString (e : LockfileNode) : Option String :=
  match e.resolved, e.version with
  | some r, some v =>
    some (if strStartsWith r "http" then e.name ++ "@" ++ v.val
          else e.name ++ "@" ++ r)
  | some r, none => some (e.name ++ "@" ++ r)
  | none, some v => some (e.name ++ "@" ++ v.val)
  | none, none => none

/-- `LockfileNode::to_package`.  The second component counts the live
`nassun.resolve` calls made (0 or 1); `resolve_from` calls are pure. -/
def LockfileNode.to_package (e : LockfileNode) (client : Client) :
    Except NmError (Option Package) × Nat :=
  match e.specString with
  | none => (Except.ok none, 0)
  | some s =>
    match parsePackageSpec s with
    | Except.error err => (Except.error err, 0)
    | Except.ok sp =>
      match sp.target with
      | PackageSpec.dir path =>
        (Except.ok (some (resolveFrom e.name
          (PackageResolution.dirRes e.name path))), 0)
      | PackageSpec.npm tname _ =>
        match e.version with
        | none => (Except.error NmError.missingVersion, 0)
        | some v =>
          match e.resolved with
          | some url =>
            match parseUrl url with
            | none => (Except.error (NmError.urlParseError url), 0)
            | some u =>
              (Except.ok (some (resolveFrom e.name
                (PackageResolution.npmRes tname v u e.integrity))), 0)
          | none => ((client.resolveLive sp.toStr).map some, 1)
      | PackageSpec.git info =>
        match info with
        | some c =>
          (Except.ok (some (resolveFrom e.name
            (PackageResolution.gitRes e.name (some c)))), 0)
        | none => ((client.resolveLive sp.toStr).map some, 1)
      | PackageSpec.alias _ _ =>
        (Except.error NmError.aliasUnreachablePanic, 0)

/-! ### Statement helpers: validity, canonicalization, classifiers -/

/-- The value the construction stores for a key: the value of the last
pair in iteration order whose key matches. -/
def lastMatch (eq : String → String → Bool) (k : String)
    (l : List (String × α)) : Option α :=
  (l.reverse.find? fun p => eq k p.1).map Prod.snd

/-- Pairwise distinctness of the keys of an association list under a
given key equality. -/
def nodupKeysBy (eq : String → String → Bool) : List (String × α) → Bool
  | [] => true
  | p :: rest => (rest.all fun q => !eq p.1 q.1) && nodupKeysBy eq rest

/-- The dependency-pair sort order (by dependency name). -/
def depPairLe (a b : String × String) : Prop := strLe a.1 b.1 = true

instance : DecidableRel depPairLe := fun a b => by
  unfold depPairLe; infer_instance

/-- Dependency map sorted by name, as re-read from a serialized block. -/
def sortDepPairs (deps : List (String × String)) : List (String × String) :=
  List.insertionSort depPairLe deps

/-- A `LockfileNode` with each dependency map in serialized (sorted)
order: the exact entry value the document codec re-reads. -/
def canonNode (e : LockfileNode) : LockfileNode :=
  { e with
      dependencies := sortDepPairs e.dependencies
      dev_dependencies := sortDepPairs e.dev_dependencies
      peer_dependencies := sortDepPairs e.peer_dependencies
      optional_dependencies := sortDepPairs e.optional_dependencies }

/-- The exact snapshot the document codec re-reads from a serialized
valid snapshot: same version and root/entries up to canonical
(sorted) dependency order, with the entries listed in key-sorted order. -/
def canonLock (s : Lockfile) : Lockfile :=
  { version := s.version
    root := canonNode s.root
    packages := (sortPackages s.packages).map fun p => (p.1, canonNode p.2) }

/-- Validity of a non-root entry, after the spec: not the root, non-empty
path ending in the entry name, integrity only alongside resolved, and
well-formed (duplicate-free) dependency maps. -/
def validEntryB (e : LockfileNode) : Bool :=
  !e.is_root && !e.path.isEmpty && e.path.getLast? == some e.name &&
    (e.integrity.isNone || e.resolved.isSome) &&
    nodupKeysBy strEq e.dependencies && nodupKeysBy strEq e.dev_dependencies &&
    nodupKeysBy strEq e.peer_dependencies &&
    nodupKeysBy strEq e.optional_dependencies

/-- Validity of the root entry: `is_root`, empty name and path, no
resolved and no integrity (the serializer never emits either for the
root), and well-formed dependency maps. -/
def validRootB (r : LockfileNode) : Bool :=
  r.is_root && r.path.isEmpty && r.name == "" && r.resolved.isNone &&
    r.integrity.isNone &&
    nodupKeysBy strEq r.dependencies && nodupKeysBy strEq r.dev_dependencies &&
    nodupKeysBy strEq r.peer_dependencies &&
    nodupKeysBy strEq r.optional_dependencies

/-- Validity of a whole snapshot: valid root, valid entries each keyed by
its joined path, case-insensitively distinct keys, and a version within
`i64` range (the serializer emits the version through a `u64 as i64`
cast). -/
def validLockfileB (s : Lockfile) : Bool :=
  decide (s.version < 2 ^ 63) && validRootB s.root &&
    (s.packages.all fun p => validEntryB p.2 && p.1 == joinKey p.2.path) &&
    nodupKeysBy uciEq s.packages

/-- Entry equality up to dependency-map order (the derived `PartialEq` of
the source compares `IndexMap`s without regard to order). -/
def depsPermEq (a b : LockfileNode) : Prop :=
  a.name = b.name ∧ a.is_root = b.is_root ∧ a.path = b.path ∧
    a.resolved = b.resolved ∧ a.version = b.version ∧
    a.integrity = b.integrity ∧
    a.dependencies.Perm b.dependencies ∧
    a.dev_dependencies.Perm b.dev_dependencies ∧
    a.peer_dependencies.Perm b.peer_dependencies ∧
    a.optional_dependencies.Perm b.optional_dependencies

/-- Pointwise lifting of a relation to `Option`. -/
def optRel (R : α → α → Prop) : Option α → Option α → Prop
  | some a, some b => R a b
  | none, none => True
  | _, _ => False

/-- Snapshot equality up to map ordering: same version, roots equal up to
dependency order, and entry maps of the same size agreeing (up to
dependency order) on every case-insensitive key. -/
def lockUpToOrder (t s : Lockfile) : Prop :=
  t.version = s.version ∧ depsPermEq t.root s.root ∧
    t.packages.length = s.packages.length ∧
    ∀ k, optRel depsPermEq (imapGet uciEq k t.packages)
      (imapGet uciEq k s.packages)

/-- The `pkg` nodes of a document, in order. -/
def pkgNodesOf (d : KDoc) : KDoc := d.filter fun n => n.name == "pkg"

/-- Does a document-codec parse result carry the document-format
missing-root error? -/
def isKdlMissingRoot : Except NmError Lockfile → Bool
  | Except.error (NmError.kdlLockMissingRoot _) => true
  | _ => false

/-- Does a compatibility-codec parse result carry the compatibility
missing-root error? -/
def isNpmMissingRoot : Except NmError Lockfile → Bool
  | Except.error (NmError.npmLockMissingRoot _) => true
  | _ => false

/-- Does a compatibility-codec parse result carry the invalid-version
error? -/
def isInvalidVersion : Except NmError Lockfile → Bool
  | Except.error NmError.invalidLockfileVersion => true
  | _ => false

/-! ### Concrete inputs for witnesses and counterexamples -/

/-- An all-absent compatibility entry (every field `#[serde(default)]`). -/
def npmEntryEmpty : NpmEntry := ⟨none, none, none, none, [], [], [], []⟩

/-- The entry the codecs produce for a bare root. -/
def emptyRootNode : LockfileNode :=
  ⟨"", true, [], none, none, none, [], [], [], []⟩

def c1CexLock : NpmPackageLock := ⟨none, false, [("", npmEntryEmpty)]⟩

def c2WitRoot : LockfileNode :=
  ⟨"", true, [], none, none, none, [("lodash", "^4")], [], [], []⟩

def c2WitPkg : LockfileNode :=
  ⟨"lodash", false, ["lodash"], some "https://reg/x.tgz",
    some ⟨"4.17.21", by decide⟩, some ⟨"sha512-abc", by decide⟩,
    [("b", "1"), ("a", "2")], [], [], []⟩

def c2Wit : Lockfile := ⟨2, c2WitRoot, [("lodash", c2WitPkg)]⟩

def c2Cex : Lockfile :=
  ⟨1, ⟨"", true, [], some "x", none, none, [], [], [], []⟩, []⟩

def c2CexParsed : Lockfile := ⟨1, emptyRootNode, []⟩

def c3WitDocA : KDoc := [KNode.mk "root" [] none]

def c3WitParsedA : Lockfile := ⟨1, emptyRootNode, []⟩

def c3WitDocB : KDoc :=
  [KNode.mk "lockfile-version" [⟨none, KVal.int (-1)⟩] none,
    KNode.mk "root" [] none]

def c3WitLockNeg : NpmPackageLock :=
  ⟨some (-1), false, [("", npmEntryEmpty)]⟩

def c3CexLock : NpmPackageLock :=
  ⟨some (2 ^ 64), false, [("", npmEntryEmpty)]⟩

def c4Client : Client :=
  ⟨fun s => Except.ok ⟨s, PackageResolution.dirRes s "live"⟩⟩

def c4Wit1 : LockfileNode :=
  ⟨"foo", false, ["foo"], some "1.2.3", none, none, [], [], [], []⟩

def c4SemVer : SemVer := ⟨"1.0.0", by decide⟩

def c4Integ : Integrity := ⟨"sha512-xyz", by decide⟩

def c4Url : Url := ⟨"https://reg/foo.tgz", by decide⟩

def c4Wit2 : LockfileNode :=
  ⟨"foo", false, ["foo"], some "https://reg/foo.tgz", some c4SemVer,
    some c4Integ, [], [], [], []⟩

def c4Wit3 : LockfileNode :=
  ⟨"foo", false, ["foo"], none, some c4SemVer, none, [], [], [], []⟩

def c4Wit4 : LockfileNode :=
  ⟨"foo", false, ["foo"], some "notaurl", some c4SemVer, some c4Integ,
    [], [], [], []⟩

def c5PkgA : LockfileNode :=
  ⟨"alpha", false, ["alpha"], none, none, none, [("b", "1"), ("a", "2")],
    [], [], []⟩

def c5PkgB : LockfileNode :=
  ⟨"beta", false, ["beta"], none, none, none, [], [], [], []⟩

def c5Wit : Lockfile :=
  ⟨1, emptyRootNode, [("beta", c5PkgB), ("alpha", c5PkgA)]⟩

def c5WitB : Lockfile :=
  ⟨1, emptyRootNode, [("alpha", c5PkgA), ("beta", c5PkgB)]⟩

def c6CexPkg : KNode := KNode.mk "pkg" [] none

def c6CexDoc : KDoc := [c6CexPkg]

def c6WitDoc : KDoc := [KNode.mk "pkg" [⟨none, KVal.str "a"⟩] none]

def c6WitNodeA : LockfileNode :=
  ⟨"a", false, ["a"], none, none, none, [], [], [], []⟩

def c6WitLock : NpmPackageLock :=
  ⟨none, false,
    [("node_modules/a", ⟨some "a", none, none, none, [], [], [], []⟩)]⟩

def c7WitDoc : KDoc :=
  [KNode.mk "root" [] none, KNode.mk "pkg" [⟨none, KVal.str "Foo"⟩] none,
    KNode.mk "pkg" [⟨none, KVal.str "foo"⟩] none]

def c7NodeFoo : LockfileNode :=
  ⟨"Foo", false, ["Foo"], none, none, none, [], [], [], []⟩

def c7Nodefoo : LockfileNode :=
  ⟨"foo", false, ["foo"], none, none, none, [], [], [], []⟩

def c7KdlPairs : List (String × LockfileNode) :=
  [("Foo", c7NodeFoo), ("foo", c7Nodefoo)]

def c7KdlParsed : Lockfile := ⟨1, emptyRootNode, [("Foo", c7Nodefoo)]⟩

def c8Wit : LockfileNode :=
  ⟨"foo", false, ["foo"], none, none, none, [], [], [], []⟩

def c8Client : Client :=
  ⟨fun s => Except.ok ⟨s, PackageResolution.dirRes s "live"⟩⟩

def c9WitA : Lockfile := ⟨5, emptyRootNode, []⟩

def c9WitB : Lockfile := ⟨2 ^ 63, emptyRootNode, []⟩

def c10CexLock : NpmPackageLock :=
  ⟨none, false, [("", npmEntryEmpty), ("foo", npmEntryEmpty)]⟩

def c10WitEntry : NpmEntry := ⟨some "foo", none, none, none, [], [], [], []⟩

def c10WitNode : LockfileNode :=
  ⟨"foo", true, [], none, none, none, [], [], [], []⟩

/-! ## Lemmas: string order -/

theorem leChars_total : ∀ a b, leChars a b = true ∨ leChars b a = true := by
  intro a
  induction a with
  | nil => intro b; exact Or.inl rfl
  | cons x xs ih =>
    intro b
    cases b with
    | nil => exact Or.inr rfl
    | cons y ys =>
      by_cases h1 : x.toNat < y.toNat
      · left; simp [leChars, h1]
      · by_cases h2 : y.toNat < x.toNat
        · right; simp [leChars, h2]
        · rcases ih ys with h | h
          · left; simp [leChars, h1, h2, h]
          · right; simp [leChars, h1, h2, h]

theorem leChars_trans :
    ∀ a b c, leChars a b = true → leChars b c = true → leChars a c = true := by
  intro a
  induction a with
  | nil => intro b c _ _; rfl
  | cons x xs ih =>
    intro b c hab hbc
    cases b with
    | nil => simp [leChars] at hab
    | cons y ys =>
      cases c with
      | nil => simp [leChars] at hbc
      | cons z zs =>
        simp only [leChars] at hab hbc ⊢
        by_cases hxz : x.toNat < z.toNat
        · simp [hxz]
        · by_cases hzx : z.toNat < x.toNat
          · exfalso
            by_cases hxy : x.toNat < y.toNat
            · by_cases hyz : y.toNat < z.toNat
              · omega
              · by_cases hzy : z.toNat < y.toNat
                · simp [hyz, hzy] at hbc
                · omega
            · by_cases hyx : y.toNat < x.toNat
              · simp [hxy, hyx] at hab
              · by_cases hyz : y.toNat < z.toNat
                · omega
                · by_cases hzy : z.toNat < y.toNat
                  · simp [hyz, hzy] at hbc
                  · omega
          · have hxz' : ¬x.toNat < z.toNat := hxz
            simp only [hxz', if_false, hzx]
            by_cases hxy : x.toNat < y.toNat
            · by_cases hyz : y.toNat < z.toNat
              · omega
              · by_cases hzy : z.toNat < y.toNat
                · simp [hyz, hzy] at hbc
                · omega
            · by_cases hyx : y.toNat < x.toNat
              · simp [hxy, hyx] at hab
              · by_cases hyz : y.toNat < z.toNat
                · omega
                · by_cases hzy : z.toNat < y.toNat
                  · simp [hyz, hzy] at hbc
                  · simp only [hxy, if_false, hyx] at hab
                    simp only [hyz, if_false, hzy] at hbc
                    simp [ih ys zs hab hbc]

theorem char_toNat_inj {a b : Char} (h : a.toNat = b.toNat) : a = b :=
  Char.eq_of_val_eq (UInt32.ext h)

theorem leChars_antisymm :
    ∀ a b, leChars a b = true → leChars b a = true → a = b := by
  intro a
  induction a with
  | nil =>
    intro b _ hba
    cases b with
    | nil => rfl
    | cons y ys => simp [leChars] at hba
  | cons x xs ih =>
    intro b hab hba
    cases b with
    | nil => simp [leChars] at hab
    | cons y ys =>
      simp only [leChars] at hab hba
      by_cases hxy : x.toNat < y.toNat
      · simp [Nat.lt_asymm hxy, hxy] at hba
      · by_cases hyx : y.toNat < x.toNat
        · simp [hxy, hyx] at hab
        · have hx : x = y := char_toNat_inj (by omega)
          simp only [hxy, if_false, hyx] at hab hba
          rw [hx, ih ys hab hba]

/-! ## Lemmas: IndexMap construction -/

theorem uciEq_sym (a b : String) : uciEq a b = uciEq b a := by
  unfold uciEq
  cases h1 : fold a == fold b <;> cases h2 : fold b == fold a <;> try rfl
  · rw [beq_iff_eq] at h2
    rw [h2] at h1
    simp at h1
  · rw [beq_iff_eq] at h1
    rw [h1] at h2
    simp at h2

theorem uciEq_trans (a b c : String) :
    uciEq a b = true → uciEq b c = true → uciEq a c = true := by
  unfold uciEq
  intro h1 h2
  simp only [beq_iff_eq] at h1 h2 ⊢
  rw [h1, h2]

theorem strEq_sym (a b : String) : strEq a b = strEq b a := by
  unfold strEq
  cases h1 : a == b <;> cases h2 : b == a <;> try rfl
  · rw [beq_iff_eq] at h2
    rw [h2] at h1
    simp at h1
  · rw [beq_iff_eq] at h1
    rw [h1] at h2
    simp at h2

theorem strEq_trans (a b c : String) :
    strEq a b = true → strEq b c = true → strEq a c = true := by
  unfold strEq
  intro h1 h2
  simp only [beq_iff_eq] at h1 h2 ⊢
  rw [h1, h2]

theorem imapInsert_noMatch {α : Type} {eq : String → String → Bool}
    {k : String} {v : α} :
    ∀ {m : List (String × α)}, (∀ q ∈ m, eq k q.1 = false) →
      imapInsert eq k v m = m ++ [(k, v)] := by
  intro m
  induction m with
  | nil => intro _; rfl
  | cons p rest ih =>
    intro h
    have hp : eq k p.1 = false := h p (List.mem_cons_self p rest)
    simp only [imapInsert, hp, Bool.false_eq_true, if_false, List.cons_append,
      List.cons.injEq, true_and]
    exact ih fun q hq => h q (List.mem_cons_of_mem p hq)

theorem imapGet_imapInsert {α : Type} {eq : String → String → Bool}
    (hsym : ∀ a b, eq a b = eq b a)
    (htrans : ∀ a b c, eq a b = true → eq b c = true → eq a c = true)
    (k2 k : String) (v : α) :
    ∀ (m : List (String × α)),
      imapGet eq k2 (imapInsert eq k v m) =
        if eq k2 k then some v else imapGet eq k2 m := by
  intro m
  induction m with
  | nil => cases h : eq k2 k <;> simp [imapInsert, imapGet, h]
  | cons p rest ih =>
    cases hkp : eq k p.1 with
    | true =>
      cases h2 : eq k2 p.1 with
      | true =>
        have hk2k : eq k2 k = true :=
          htrans k2 p.1 k h2 (by rw [hsym p.1 k]; exact hkp)
        simp [imapInsert, imapGet, hkp, h2, hk2k]
      | false =>
        have hk2k : eq k2 k = false := by
          cases hx : eq k2 k with
          | false => rfl
          | true =>
            have hz := htrans k2 k p.1 hx hkp
            rw [h2] at hz
            exact Bool.noConfusion hz
        simp [imapInsert, imapGet, hkp, h2, hk2k]
    | false =>
      cases h2 : eq k2 p.1 with
      | true =>
        have hk2k : eq k2 k = false := by
          cases hx : eq k2 k with
          | false => rfl
          | true =>
            have h3 : eq k k2 = true := by rw [hsym k k2]; exact hx
            have hz := htrans k k2 p.1 h3 h2
            rw [hkp] at hz
            exact Bool.noConfusion hz
        simp [imapInsert, imapGet, hkp, h2, hk2k]
      | false =>
        simp [imapInsert, imapGet, hkp, h2, ih]

theorem lastMatch_cons {α : Type} {eq : String → String → Bool} {k : String}
    (p : String × α) (rest : List (String × α)) :
    lastMatch eq k (p :: rest) =
      (lastMatch eq k rest).or (if eq k p.1 then some p.2 else none) := by
  unfold lastMatch
  rw [List.reverse_cons, List.find?_append]
  cases hf : List.find? (fun q => eq k q.1) rest.reverse with
  | some q => simp [hf]
  | none =>
    simp only [hf, Option.none_or]
    cases hek : eq k p.1 <;> simp [List.find?_cons, hek]

theorem foldl_imapInsert_lookup {α : Type} {eq : String → String → Bool}
    (hsym : ∀ a b, eq a b = eq b a)
    (htrans : ∀ a b c, eq a b = true → eq b c = true → eq a c = true)
    (k : String) :
    ∀ (l m : List (String × α)),
      imapGet eq k (l.foldl (fun m2 p => imapInsert eq p.1 p.2 m2) m) =
        (lastMatch eq k l).or (imapGet eq k m) := by
  intro l
  induction l with
  | nil => intro m; simp [lastMatch]
  | cons p rest ih =>
    intro m
    rw [List.foldl_cons, ih, lastMatch_cons, Option.or_assoc]
    congr 1
    rw [imapGet_imapInsert hsym htrans]
    cases hek : eq k p.1 <;> simp

theorem imapOfList_lookup {α : Type} {eq : String → String → Bool}
    (hsym : ∀ a b, eq a b = eq b a)
    (htrans : ∀ a b c, eq a b = true → eq b c = true → eq a c = true)
    (k : String) (l : List (String × α)) :
    imapGet eq k (imapOfList eq l) = lastMatch eq k l := by
  unfold imapOfList
  rw [foldl_imapInsert_lookup hsym htrans]
  simp [imapGet]

theorem mem_imapInsert_val {α : Type} {eq : String → String → Bool}
    {k : String} {v : α} :
    ∀ {m : List (String × α)} {q}, q ∈ imapInsert eq k v m →
      q.2 = v ∨ q ∈ m := by
  intro m
  induction m with
  | nil =>
    intro q hq
    simp only [imapInsert, List.mem_singleton] at hq
    left; rw [hq]
  | cons p rest ih =>
    intro q hq
    cases h : eq k p.1 with
    | true =>
      rw [imapInsert, if_pos h] at hq
      rcases List.mem_cons.mp hq with hq | hq
      · left; rw [hq]
      · right; exact List.mem_cons_of_mem p hq
    | false =>
      rw [imapInsert, if_neg (by simp [h])] at hq
      rcases List.mem_cons.mp hq with hq | hq
      · right; rw [hq]; exact List.mem_cons_self p rest
      · rcases ih hq with h1 | h1
        · left; exact h1
        · right; exact List.mem_cons_of_mem p h1

theorem mem_imapInsert_key {α : Type} {eq : String → String → Bool}
    {k : String} {v : α} :
    ∀ {m : List (String × α)} {q}, q ∈ imapInsert eq k v m →
      q.1 = k ∨ ∃ p ∈ m, q.1 = p.1 := by
  intro m
  induction m with
  | nil =>
    intro q hq
    simp only [imapInsert, List.mem_singleton] at hq
    left; rw [hq]
  | cons p rest ih =>
    intro q hq
    cases h : eq k p.1 with
    | true =>
      rw [imapInsert, if_pos h] at hq
      rcases List.mem_cons.mp hq with hq | hq
      · right; exact ⟨p, List.mem_cons_self p rest, by rw [hq]⟩
      · right; exact ⟨q, List.mem_cons_of_mem p hq, rfl⟩
    | false =>
      rw [imapInsert, if_neg (by simp [h])] at hq
      rcases List.mem_cons.mp hq with hq | hq
      · right; exact ⟨p, List.mem_cons_self p rest, by rw [hq]⟩
      · rcases ih hq with h1 | h1
        · left; exact h1
        · rcases h1 with ⟨p2, hp2, hqe⟩
          right; exact ⟨p2, List.mem_cons_of_mem p hp2, hqe⟩

theorem mem_imapOfList_val {α : Type} {eq : String → String → Bool} :
    ∀ (l : List (String × α)) (q), q ∈ imapOfList eq l →
      ∃ p ∈ l, q.2 = p.2 := by
  have haux : ∀ (l m : List (String × α)) (q),
      q ∈ l.foldl (fun m2 p => imapInsert eq p.1 p.2 m2) m →
        q ∈ m ∨ ∃ p ∈ l, q.2 = p.2 := by
    intro l
    induction l with
    | nil => intro m q h; exact Or.inl h
    | cons p rest ih =>
      intro m q h
      rw [List.foldl_cons] at h
      rcases ih _ q h with h1 | h1
      · rcases mem_imapInsert_val h1 with h2 | h2
        · right; exact ⟨p, List.mem_cons_self p rest, h2⟩
        · left; exact h2
      · rcases h1 with ⟨p2, hp2, hq⟩
        right; exact ⟨p2, List.mem_cons_of_mem p hp2, hq⟩
  intro l q h
  rcases haux l [] q h with h1 | h1
  · exact absurd h1 (List.not_mem_nil q)
  · exact h1

theorem nodupKeysBy_imapInsert {α : Type} {eq : String → String → Bool}
    (hsym : ∀ a b, eq a b = eq b a) (k : String) (v : α) :
    ∀ {m : List (String × α)}, nodupKeysBy eq m = true →
      nodupKeysBy eq (imapInsert eq k v m) = true := by
  intro m
  induction m with
  | nil => intro _; simp [imapInsert, nodupKeysBy]
  | cons p rest ih =>
    intro h
    rw [nodupKeysBy, Bool.and_eq_true] at h
    rcases h with ⟨hall, hrest⟩
    cases hkp : eq k p.1 with
    | true =>
      rw [imapInsert, if_pos hkp]
      rw [nodupKeysBy, Bool.and_eq_true]
      exact ⟨hall, hrest⟩
    | false =>
      rw [imapInsert, if_neg (by simp [hkp])]
      rw [nodupKeysBy, Bool.and_eq_true]
      constructor
      · rw [List.all_eq_true]
        intro q hq
        rcases mem_imapInsert_key hq with h1 | h1
        · rw [h1]
          have : eq p.1 k = false := by rw [hsym p.1 k]; exact hkp
          simp [this]
        · rcases h1 with ⟨p2, hp2, hqe⟩
          rw [hqe]
          have := (List.all_eq_true.mp hall) p2 hp2
          exact this
      · exact ih hrest

theorem nodupKeysBy_imapOfList {α : Type} {eq : String → String → Bool}
    (hsym : ∀ a b, eq a b = eq b a) (l : List (String × α)) :
    nodupKeysBy eq (imapOfList eq l) = true := by
  have haux : ∀ (l2 m : List (String × α)), nodupKeysBy eq m = true →
      nodupKeysBy eq (l2.foldl (fun m2 p => imapInsert eq p.1 p.2 m2) m) = true := by
    intro l2
    induction l2 with
    | nil => intro m h; exact h
    | cons p rest ih =>
      intro m h
      rw [List.foldl_cons]
      exact ih _ (nodupKeysBy_imapInsert hsym p.1 p.2 h)
  exact haux l [] rfl

theorem foldl_imapInsert_noMatch {α : Type} {eq : String → String → Bool}
    (hsym : ∀ a b, eq a b = eq b a) :
    ∀ (l m : List (String × α)), nodupKeysBy eq l = true →
      (∀ p ∈ l, ∀ q ∈ m, eq p.1 q.1 = false) →
      l.foldl (fun m2 p => imapInsert eq p.1 p.2 m2) m = m ++ l := by
  intro l
  induction l with
  | nil => intro m _ _; simp
  | cons p rest ih =>
    intro m hnd hmatch
    rw [nodupKeysBy, Bool.and_eq_true] at hnd
    rcases hnd with ⟨hall, hrest⟩
    rw [List.foldl_cons]
    rw [imapInsert_noMatch (fun q hq => hmatch p (List.mem_cons_self p rest) q hq)]
    rw [ih (m ++ [(p.1, p.2)]) hrest]
    · simp
    · intro p2 hp2 q hq
      rcases List.mem_append.mp hq with hq | hq
      · exact hmatch p2 (List.mem_cons_of_mem p hp2) q hq
      · rw [List.mem_singleton] at hq
        rw [hq]
        have := (List.all_eq_true.mp hall) p2 hp2
        rw [hsym]
        simpa using this

theorem imapOfList_eq_self {α : Type} {eq : String → String → Bool}
    (hsym : ∀ a b, eq a b = eq b a) (l : List (String × α))
    (h : nodupKeysBy eq l = true) : imapOfList eq l = l := by
  unfold imapOfList
  rw [foldl_imapInsert_noMatch hsym l [] h (by intro p _ q hq; cases hq)]
  simp

theorem nodupKeysBy_iff_pairwise {α : Type} {eq : String → String → Bool} :
    ∀ (l : List (String × α)), nodupKeysBy eq l = true ↔
      l.Pairwise (fun p q => eq p.1 q.1 = false) := by
  intro l
  induction l with
  | nil => simp [nodupKeysBy]
  | cons p rest ih =>
    rw [nodupKeysBy, Bool.and_eq_true, List.pairwise_cons, ih, List.all_eq_true]
    constructor
    · intro ⟨h1, h2⟩
      exact ⟨fun q hq => by simpa using h1 q hq, h2⟩
    · intro ⟨h1, h2⟩
      exact ⟨fun q hq => by simpa using h1 q hq, h2⟩

theorem imapGet_perm {α : Type} {eq : String → String → Bool}
    (hsym : ∀ a b, eq a b = eq b a)
    (htrans : ∀ a b c, eq a b = true → eq b c = true → eq a c = true)
    (k : String) {l1 l2 : List (String × α)} (hperm : l1.Perm l2)
    (hnd : nodupKeysBy eq l1 = true) :
    imapGet eq k l1 = imapGet eq k l2 := by
  rw [nodupKeysBy_iff_pairwise] at hnd
  induction hperm with
  | nil => rfl
  | cons x h ih =>
    rw [List.pairwise_cons] at hnd
    rw [imapGet, imapGet, ih hnd.2]
  | swap x y t =>
    rw [List.pairwise_cons] at hnd
    rcases hnd with ⟨hy, hnd⟩
    have hyx : eq y.1 x.1 = false := hy x (List.mem_cons_self x t)
    cases h1 : eq k y.1 with
    | true =>
      have h2 : eq k x.1 = false := by
        cases h2x : eq k x.1 with
        | false => rfl
        | true =>
          have h3 : eq y.1 k = true := by rw [hsym y.1 k]; exact h1
          have hz := htrans y.1 k x.1 h3 h2x
          rw [hyx] at hz
          exact Bool.noConfusion hz
      simp [imapGet, h1, h2]
    | false =>
      cases h2 : eq k x.1 with
      | true => simp [imapGet, h1, h2]
      | false => simp [imapGet, h1, h2]
  | trans h12 h23 ih12 ih23 =>
    rw [ih12 hnd]
    have hnd2 := (List.Perm.pairwise_iff
      (fun hxy => by rw [hsym]; exact hxy) h12).mp hnd
    exact ih23 hnd2

theorem imapGet_map {α β : Type} {eq : String → String → Bool}
    (f : α → β) (k : String) :
    ∀ (l : List (String × α)),
      imapGet eq k (l.map fun p => (p.1, f p.2)) = (imapGet eq k l).map f := by
  intro l
  induction l with
  | nil => rfl
  | cons p rest ih =>
    cases h : eq k p.1 with
    | true => simp [imapGet, h]
    | false => simp [imapGet, h, ih]

/-! ## Lemmas: sorting -/

theorem sorted_perm_unique {α : Type} {r keq : α → α → Prop}
    (hanti : ∀ a b, r a b → r b a → keq a b) :
    ∀ (l1 l2 : List α), l1.Perm l2 → l1.Sorted r → l2.Sorted r →
      l1.Pairwise (fun a b => ¬keq a b) → l1 = l2 := by
  intro l1
  induction l1 with
  | nil => intro l2 hp _ _ _; exact List.Perm.nil_eq hp
  | cons a t1 ih =>
    intro l2 hp hs1 hs2 hnd
    cases l2 with
    | nil => exact absurd hp.symm (by simp [List.Perm.nil_eq, List.cons_ne_nil])
    | cons b t2 =>
      by_cases hab : a = b
      · subst hab
        have ht : t1.Perm t2 := List.Perm.cons_inv hp
        rw [ih t2 ht (List.sorted_cons.mp hs1).2 (List.sorted_cons.mp hs2).2
          (List.pairwise_cons.mp hnd).2]
      · exfalso
        have ha2 : a ∈ b :: t2 := hp.mem_iff.mp (List.mem_cons_self a t1)
        have hat2 : a ∈ t2 := by
          rcases List.mem_cons.mp ha2 with h | h
          · exact absurd h hab
          · exact h
        have hb1 : b ∈ a :: t1 := hp.mem_iff.mpr (List.mem_cons_self b t2)
        have hbt1 : b ∈ t1 := by
          rcases List.mem_cons.mp hb1 with h | h
          · exact absurd h.symm hab
          · exact h
        have hrba : r b a := List.rel_of_sorted_cons hs2 a hat2
        have hrab : r a b := List.rel_of_sorted_cons hs1 b hbt1
        exact (List.pairwise_cons.mp hnd).1 b hbt1 (hanti a b hrab hrba)

theorem orderedInsert_map {α β : Type} (f : α → β) (r : β → β → Prop)
    (r2 : α → α → Prop) [DecidableRel r] [DecidableRel r2]
    (hcompat : ∀ a b, r2 a b ↔ r (f a) (f b)) (a : α) :
    ∀ (l : List α),
      List.orderedInsert r (f a) (l.map f) = (List.orderedInsert r2 a l).map f := by
  intro l
  induction l with
  | nil => rfl
  | cons b t ih =>
    by_cases h : r2 a b
    · rw [List.map_cons, List.orderedInsert, List.orderedInsert,
        if_pos ((hcompat a b).mp h), if_pos h, List.map_cons, List.map_cons]
    · rw [List.map_cons, List.orderedInsert, List.orderedInsert,
        if_neg (fun hx => h ((hcompat a b).mpr hx)), if_neg h, List.map_cons, ih]

theorem insertionSort_map {α β : Type} (f : α → β) (r : β → β → Prop)
    (r2 : α → α → Prop) [DecidableRel r] [DecidableRel r2]
    (hcompat : ∀ a b, r2 a b ↔ r (f a) (f b)) :
    ∀ (l : List α),
      List.insertionSort r (l.map f) = (List.insertionSort r2 l).map f := by
  intro l
  induction l with
  | nil => rfl
  | cons a t ih =>
    rw [List.map_cons, List.insertionSort, List.insertionSort, ih,
      orderedInsert_map f r r2 hcompat]

theorem sortPackages_perm (l : List (String × LockfileNode)) :
    (sortPackages l).Perm l :=
  List.perm_insertionSort pkgKeyLe l

theorem sortPackages_sorted (l : List (String × LockfileNode)) :
    (sortPackages l).Sorted pkgKeyLe := by
  haveI : IsTotal (String × LockfileNode) pkgKeyLe :=
    ⟨fun a b => leChars_total (fold a.1).data (fold b.1).data⟩
  haveI : IsTrans (String × LockfileNode) pkgKeyLe :=
    ⟨fun a b c h1 h2 =>
      leChars_trans (fold a.1).data (fold b.1).data (fold c.1).data h1 h2⟩
  exact List.sorted_insertionSort pkgKeyLe l

theorem sortDepPairs_perm (l : List (String × String)) :
    (sortDepPairs l).Perm l :=
  List.perm_insertionSort depPairLe l

theorem sortDepPairs_sorted (l : List (String × String)) :
    (sortDepPairs l).Sorted depPairLe := by
  haveI : IsTotal (String × String) depPairLe :=
    ⟨fun a b => leChars_total a.1.data b.1.data⟩
  haveI : IsTrans (String × String) depPairLe :=
    ⟨fun a b c h1 h2 => leChars_trans a.1.data b.1.data c.1.data h1 h2⟩
  exact List.sorted_insertionSort depPairLe l

theorem strLe_antisymm {a b : String} (h1 : strLe a b = true)
    (h2 : strLe b a = true) : a = b := by
  have hd := leChars_antisymm a.data b.data h1 h2
  cases a
  cases b
  exact congrArg String.mk hd

theorem fold_eq_of_uciLe {a b : String} (h1 : uciLe a b) (h2 : uciLe b a) :
    fold a = fold b :=
  strLe_antisymm h1 h2

theorem uciEq_of_uciLe {a b : String} (h1 : uciLe a b) (h2 : uciLe b a) :
    uciEq a b = true := by
  unfold uciEq
  rw [fold_eq_of_uciLe h1 h2]
  simp

/-- Two insertion orders of the same package map serialize identically:
the sorted pair lists coincide. -/
theorem sortPackages_eq_of_perm {l1 l2 : List (String × LockfileNode)}
    (hperm : l1.Perm l2) (hnd : nodupKeysBy uciEq l1 = true) :
    sortPackages l1 = sortPackages l2 := by
  have hkeq : ∀ (a b : String × LockfileNode),
      pkgKeyLe a b → pkgKeyLe b a → uciEq a.1 b.1 = true :=
    fun a b hab hba => uciEq_of_uciLe hab hba
  have hp1 : l1.Pairwise fun p q => ¬uciEq p.1 q.1 = true := by
    have hp := (nodupKeysBy_iff_pairwise l1).mp hnd
    exact hp.imp fun h hx => by rw [hx] at h; exact Bool.noConfusion h
  have hsymmR : ∀ {x y : String × LockfileNode},
      ¬uciEq x.1 y.1 = true → ¬uciEq y.1 x.1 = true := by
    intro x y h hx
    rw [uciEq_sym y.1 x.1] at hx
    exact h hx
  have hps : (sortPackages l1).Pairwise fun p q => ¬uciEq p.1 q.1 = true :=
    (List.Perm.pairwise_iff hsymmR (sortPackages_perm l1)).mpr hp1
  exact sorted_perm_unique hkeq (sortPackages l1) (sortPackages l2)
    ((sortPackages_perm l1).trans (hperm.trans (sortPackages_perm l2).symm))
    (sortPackages_sorted l1) (sortPackages_sorted l2) hps

theorem strEq_of_depPairLe {a b : String × String} (h1 : depPairLe a b)
    (h2 : depPairLe b a) : strEq a.1 b.1 = true := by
  unfold strEq
  rw [strLe_antisymm h1 h2]
  simp

theorem sortDepPairs_eq_of_perm {l1 l2 : List (String × String)}
    (hperm : l1.Perm l2) (hnd : nodupKeysBy strEq l1 = true) :
    sortDepPairs l1 = sortDepPairs l2 := by
  have hkeq : ∀ (a b : String × String),
      depPairLe a b → depPairLe b a → strEq a.1 b.1 = true :=
    fun a b hab hba => strEq_of_depPairLe hab hba
  have hp1 : l1.Pairwise fun p q => ¬strEq p.1 q.1 = true := by
    have hp := (nodupKeysBy_iff_pairwise l1).mp hnd
    exact hp.imp fun h hx => by rw [hx] at h; exact Bool.noConfusion h
  have hsymmR : ∀ {x y : String × String},
      ¬strEq x.1 y.1 = true → ¬strEq y.1 x.1 = true := by
    intro x y h hx
    rw [strEq_sym y.1 x.1] at hx
    exact h hx
  have hps : (sortDepPairs l1).Pairwise fun p q => ¬strEq p.1 q.1 = true :=
    (List.Perm.pairwise_iff hsymmR (sortDepPairs_perm l1)).mpr hp1
  exact sorted_perm_unique hkeq (sortDepPairs l1) (sortDepPairs l2)
    ((sortDepPairs_perm l1).trans (hperm.trans (sortDepPairs_perm l2).symm))
    (sortDepPairs_sorted l1) (sortDepPairs_sorted l2) hps

/-! ## Lemmas: document lookups over serialized nodes -/

theorem docGet_nil (nm : String) : docGet nm [] = none := rfl

theorem docGet_cons (nm : String) (n : KNode) (rest : KDoc) :
    docGet nm (n :: rest) =
      if n.name = nm then some n else docGet nm rest := by
  unfold docGet
  rw [List.find?_cons]
  by_cases h : n.name = nm
  · simp [h]
  · have hb : (n.name == nm) = false := by simp [h]
    simp [hb, h]

theorem docGet_append (nm : String) (l1 l2 : KDoc) :
    docGet nm (l1 ++ l2) = (docGet nm l1).or (docGet nm l2) :=
  List.find?_append

theorem docGet_verPart (nm : String) (o : Option SemVer) (rest : KDoc)
    (h : nm ≠ "version") :
    docGet nm (verPart o ++ rest) = docGet nm rest := by
  unfold verPart
  cases o with
  | none => rfl
  | some v =>
    rw [List.cons_append, docGet_cons]
    have hne : ¬("version" = nm) := fun hx => h hx.symm
    simp [verNode, KNode.name, hne]

theorem docGet_verPart_hit (o : Option SemVer) (rest : KDoc)
    (hrest : docGet "version" rest = none) :
    docGet "version" (verPart o ++ rest) = o.map verNode := by
  unfold verPart
  cases o with
  | none => simpa using hrest
  | some v =>
    rw [List.cons_append, docGet_cons]
    simp [verNode, KNode.name]

theorem docGet_resPart (nm : String) (ro : Option String)
    (io : Option Integrity) (rest : KDoc)
    (h1 : nm ≠ "resolved") (h2 : nm ≠ "integrity") :
    docGet nm (resPart false ro io ++ rest) = docGet nm rest := by
  unfold resPart
  simp only [if_false, Bool.false_eq_true]
  cases ro with
  | none => rfl
  | some r =>
    rw [List.cons_append, docGet_cons]
    have hne1 : ¬("resolved" = nm) := fun hx => h1 hx.symm
    have hne2 : ¬("integrity" = nm) := fun hx => h2 hx.symm
    cases io with
    | none =>
      simp [resolvedNode, KNode.name, hne1]
    | some i =>
      rw [List.cons_append, docGet_cons]
      simp [resolvedNode, integrityNode, KNode.name, hne1, hne2]

theorem docGet_resPart_hitRes (ro : Option String) (io : Option Integrity)
    (rest : KDoc) (hrest : docGet "resolved" rest = none) :
    docGet "resolved" (resPart false ro io ++ rest) = ro.map resolvedNode := by
  unfold resPart
  simp only [if_false, Bool.false_eq_true]
  cases ro with
  | none => simpa using hrest
  | some r =>
    rw [List.cons_append, docGet_cons]
    simp [resolvedNode, KNode.name]

theorem docGet_resPart_hitInt (ro : Option String) (io : Option Integrity)
    (rest : KDoc) (hrest : docGet "integrity" rest = none)
    (hval : io.isSome → ro.isSome) :
    docGet "integrity" (resPart false ro io ++ rest) = io.map integrityNode := by
  unfold resPart
  simp only [if_false, Bool.false_eq_true]
  cases ro with
  | none =>
    cases io with
    | none => simpa using hrest
    | some i => exact absurd (hval rfl) (by simp)
  | some r =>
    rw [List.cons_append, docGet_cons]
    cases io with
    | none => simpa [resolvedNode, KNode.name] using hrest
    | some i =>
      rw [List.cons_append, docGet_cons]
      simp [resolvedNode, integrityNode, KNode.name]

theorem docGet_depPart (nm tname : String) (deps : List (String × String))
    (rest : KDoc) (h : nm ≠ tname) :
    docGet nm (depPart tname deps ++ rest) = docGet nm rest := by
  unfold depPart
  by_cases hd : deps.isEmpty
  · rw [if_pos hd, List.nil_append]
  · rw [if_neg hd, List.cons_append, docGet_cons]
    have hne : ¬(tname = nm) := fun hx => h hx.symm
    simp [toKdlDeps, KNode.name, hne]

theorem docGet_depPart_hit (tname : String) (deps : List (String × String))
    (rest : KDoc) (hrest : docGet tname rest = none) :
    docGet tname (depPart tname deps ++ rest) =
      if deps.isEmpty then none else some (toKdlDeps tname deps) := by
  unfold depPart
  by_cases hd : deps.isEmpty
  · rw [if_pos hd, List.nil_append, hrest, if_pos hd]
  · rw [if_neg hd, List.cons_append, docGet_cons, if_neg hd]
    simp [toKdlDeps, KNode.name]

theorem parseSemVer_display (v : SemVer) : parseSemVer v.val = some v := by
  unfold parseSemVer
  rw [dif_pos v.2]

theorem parseIntegrity_display (i : Integrity) :
    parseIntegrity i.val = some i := by
  unfold parseIntegrity
  rw [dif_pos i.2]

theorem parseUrl_display (u : Url) : parseUrl u.val = some u := by
  unfold parseUrl
  rw [dif_pos u.2]

theorem childrenOpt_getD (l : KDoc) :
    ((if l.isEmpty then none else some l) : Option KDoc).getD [] = l := by
  cases l with
  | nil => rfl
  | cons n rest => rfl

theorem pathArgs_roundtrip (path : List String) :
    ((pathArgs path).filter
      (fun e => e.value.isString && e.pname.isNone)).map
      (fun e => e.value.asString.getD "") = path := by
  unfold pathArgs
  induction path with
  | nil => rfl
  | cons s rest ih =>
    simp only [List.map_cons, List.filter_cons]
    simpa [KVal.isString, KVal.asString] using ih

/-! ## Lemmas: entry round trip -/

theorem nodupKeysBy_perm {α : Type} {eq : String → String → Bool}
    (hsym : ∀ a b, eq a b = eq b a) {l1 l2 : List (String × α)}
    (hperm : l1.Perm l2) (h : nodupKeysBy eq l1 = true) :
    nodupKeysBy eq l2 = true := by
  rw [nodupKeysBy_iff_pairwise] at h ⊢
  exact (List.Perm.pairwise_iff
    (fun {x y} (hxy : eq x.1 y.1 = false) => by
      rw [hsym y.1 x.1]; exact hxy) hperm).mp h

theorem depSort_map (deps : List (String × String)) :
    List.insertionSort depNameLe (deps.map mkDepNode) =
      (sortDepPairs deps).map mkDepNode := by
  unfold sortDepPairs
  exact insertionSort_map mkDepNode depNameLe depPairLe (fun a b => Iff.rfl) deps

theorem fromKdlDeps_block (deps : List (String × String))
    (hnd : nodupKeysBy strEq deps = true) :
    (List.insertionSort depNameLe (deps.map mkDepNode)).foldl
      (fun m dep => imapInsert strEq dep.name
        ((dep.firstArg.bind KVal.asString).getD "*") m) [] =
      sortDepPairs deps := by
  rw [depSort_map, List.foldl_map]
  have heach : (fun (m : List (String × String)) (y : String × String) =>
      imapInsert strEq (mkDepNode y).name
        (((mkDepNode y).firstArg.bind KVal.asString).getD "*") m) =
      fun m y => imapInsert strEq y.1 y.2 m := by
    funext m y
    rfl
  rw [heach]
  have hfold : (sortDepPairs deps).foldl
      (fun m y => imapInsert strEq y.1 y.2 m) [] =
      imapOfList strEq (sortDepPairs deps) := rfl
  rw [hfold, imapOfList_eq_self strEq_sym]
  exact nodupKeysBy_perm strEq_sym (sortDepPairs_perm deps).symm hnd

theorem docGet_depPart_last (nm tname : String)
    (deps : List (String × String)) (h : nm ≠ tname) :
    docGet nm (depPart tname deps) = none := by
  have hx := docGet_depPart nm tname deps [] h
  rw [List.append_nil] at hx
  rw [hx]
  rfl

theorem docGet_depPart_hit_last (tname : String)
    (deps : List (String × String)) :
    docGet tname (depPart tname deps) =
      if deps.isEmpty then none else some (toKdlDeps tname deps) := by
  have hx := docGet_depPart_hit tname deps [] rfl
  rw [List.append_nil] at hx
  exact hx

theorem to_kdl_childrenOrEmpty (e : LockfileNode) :
    e.to_kdl.childrenOrEmpty = serializedChildren e := by
  unfold LockfileNode.to_kdl KNode.childrenOrEmpty
  rw [KNode.children]
  exact childrenOpt_getD _

theorem to_kdl_entries (e : LockfileNode) :
    e.to_kdl.entries = pathArgs e.path := rfl

theorem to_kdl_name_nonroot (e : LockfileNode) (hroot : e.is_root = false) :
    e.to_kdl.name = "pkg" := by
  unfold LockfileNode.to_kdl
  rw [KNode.name, hroot]
  rfl

theorem to_kdl_name_root (e : LockfileNode) (hroot : e.is_root = true) :
    e.to_kdl.name = "root" := by
  unfold LockfileNode.to_kdl
  rw [KNode.name, hroot]
  rfl

theorem children_get_version (e : LockfileNode) (hroot : e.is_root = false) :
    docGetArg "version" (serializedChildren e) =
      e.version.map fun v => KVal.str v.val := by
  unfold docGetArg serializedChildren
  rw [hroot, docGet_verPart_hit]
  · cases e.version with
    | none => rfl
    | some v => rfl
  · rw [docGet_resPart _ _ _ _ (by decide) (by decide),
      docGet_depPart _ _ _ _ (by decide), docGet_depPart _ _ _ _ (by decide),
      docGet_depPart _ _ _ _ (by decide),
      docGet_depPart_last _ _ _ (by decide)]

theorem children_get_resolved (e : LockfileNode) (hroot : e.is_root = false) :
    docGetArg "resolved" (serializedChildren e) =
      e.resolved.map fun r => KVal.str r := by
  unfold docGetArg serializedChildren
  rw [hroot, docGet_verPart _ _ _ (by decide), docGet_resPart_hitRes]
  · cases e.resolved with
    | none => rfl
    | some r => rfl
  · rw [docGet_depPart _ _ _ _ (by decide), docGet_depPart _ _ _ _ (by decide),
      docGet_depPart _ _ _ _ (by decide),
      docGet_depPart_last _ _ _ (by decide)]

theorem children_get_integrity (e : LockfileNode) (hroot : e.is_root = false)
    (hval : e.integrity.isSome → e.resolved.isSome) :
    docGetArg "integrity" (serializedChildren e) =
      e.integrity.map fun i => KVal.str i.val := by
  unfold docGetArg serializedChildren
  rw [hroot, docGet_verPart _ _ _ (by decide), docGet_resPart_hitInt _ _ _ _ hval]
  · cases e.integrity with
    | none => rfl
    | some i => rfl
  · rw [docGet_depPart _ _ _ _ (by decide), docGet_depPart _ _ _ _ (by decide),
      docGet_depPart _ _ _ _ (by decide),
      docGet_depPart_last _ _ _ (by decide)]

theorem children_get_deps (e : LockfileNode) (hroot : e.is_root = false) :
    docGet "dependencies" (serializedChildren e) =
      if e.dependencies.isEmpty then none
      else some (toKdlDeps "dependencies" e.dependencies) := by
  unfold serializedChildren
  rw [hroot, docGet_verPart _ _ _ (by decide),
    docGet_resPart _ _ _ _ (by decide) (by decide), docGet_depPart_hit]
  rw [docGet_depPart _ _ _ _ (by decide), docGet_depPart _ _ _ _ (by decide),
    docGet_depPart_last _ _ _ (by decide)]

theorem children_get_devDeps (e : LockfileNode) (hroot : e.is_root = false) :
    docGet "dev-dependencies" (serializedChildren e) =
      if e.dev_dependencies.isEmpty then none
      else some (toKdlDeps "dev-dependencies" e.dev_dependencies) := by
  unfold serializedChildren
  rw [hroot, docGet_verPart _ _ _ (by decide),
    docGet_resPart _ _ _ _ (by decide) (by decide),
    docGet_depPart _ _ _ _ (by decide), docGet_depPart_hit]
  rw [docGet_depPart _ _ _ _ (by decide), docGet_depPart_last _ _ _ (by decide)]

theorem children_get_peerDeps (e : LockfileNode) (hroot : e.is_root = false) :
    docGet "peer-dependencies" (serializedChildren e) =
      if e.peer_dependencies.isEmpty then none
      else some (toKdlDeps "peer-dependencies" e.peer_dependencies) := by
  unfold serializedChildren
  rw [hroot, docGet_verPart _ _ _ (by decide),
    docGet_resPart _ _ _ _ (by decide) (by decide),
    docGet_depPart _ _ _ _ (by decide), docGet_depPart _ _ _ _ (by decide),
    docGet_depPart_hit]
  rw [docGet_depPart_last _ _ _ (by decide)]

theorem children_get_optDeps (e : LockfileNode) (hroot : e.is_root = false) :
    docGet "optional-dependencies" (serializedChildren e) =
      if e.optional_dependencies.isEmpty then none
      else some (toKdlDeps "optional-dependencies" e.optional_dependencies) := by
  unfold serializedChildren
  rw [hroot, docGet_verPart _ _ _ (by decide),
    docGet_resPart _ _ _ _ (by decide) (by decide),
    docGet_depPart _ _ _ _ (by decide), docGet_depPart _ _ _ _ (by decide),
    docGet_depPart _ _ _ _ (by decide), docGet_depPart_hit_last]

theorem fromKdlDeps_of_get (children : KDoc) (tname : String)
    (deps : List (String × String))
    (hget : docGet tname children =
      if deps.isEmpty then none else some (toKdlDeps tname deps))
    (hnd : nodupKeysBy strEq deps = true) :
    fromKdlDeps children tname = sortDepPairs deps := by
  unfold fromKdlDeps
  rw [hget]
  by_cases hd : deps.isEmpty
  · rw [if_pos hd, List.isEmpty_iff.mp hd]
    rfl
  · rw [if_neg hd]
    show (List.insertionSort depNameLe (deps.map mkDepNode)).foldl
      (fun m dep => imapInsert strEq dep.name
        ((dep.firstArg.bind KVal.asString).getD "*") m) [] = sortDepPairs deps
    exact fromKdlDeps_block deps hnd

theorem from_kdl_to_kdl_nonroot (e : LockfileNode) (hv : validEntryB e = true) :
    LockfileNode.from_kdl e.to_kdl false = Except.ok (canonNode e) := by
  rw [validEntryB] at hv
  simp only [Bool.and_eq_true, Bool.not_eq_true'] at hv
  obtain ⟨⟨⟨⟨⟨⟨⟨hroot, hpath⟩, hlast⟩, hio⟩, hnd1⟩, hnd2⟩, hnd3⟩, hnd4⟩ := hv
  rw [beq_iff_eq] at hlast
  have hval : e.integrity.isSome → e.resolved.isSome := by
    intro hi
    cases hx : e.integrity with
    | none => rw [hx] at hi; cases hi
    | some i =>
      rw [hx] at hio
      simpa using hio
  have hdep1 : fromKdlDeps (serializedChildren e) "dependencies" =
      sortDepPairs e.dependencies :=
    fromKdlDeps_of_get _ _ _ (children_get_deps e hroot) hnd1
  have hdep2 : fromKdlDeps (serializedChildren e) "dev-dependencies" =
      sortDepPairs e.dev_dependencies :=
    fromKdlDeps_of_get _ _ _ (children_get_devDeps e hroot) hnd2
  have hdep3 : fromKdlDeps (serializedChildren e) "peer-dependencies" =
      sortDepPairs e.peer_dependencies :=
    fromKdlDeps_of_get _ _ _ (children_get_peerDeps e hroot) hnd3
  have hdep4 : fromKdlDeps (serializedChildren e) "optional-dependencies" =
      sortDepPairs e.optional_dependencies :=
    fromKdlDeps_of_get _ _ _ (children_get_optDeps e hroot) hnd4
  unfold LockfileNode.from_kdl
  simp only [to_kdl_childrenOrEmpty, to_kdl_entries, pathArgs_roundtrip, hlast,
    hdep1, hdep2, hdep3, hdep4, children_get_version e hroot,
    children_get_resolved e hroot, children_get_integrity e hroot hval]
  cases hiv : e.integrity with
  | none =>
    cases hvv : e.version with
    | none =>
      cases hrv : e.resolved with
      | none =>
        simp [Except.bind, canonNode, KVal.asString, hroot, hiv, hvv, hrv]
        try rfl
      | some r =>
        simp [Except.bind, canonNode, KVal.asString, hroot, hiv, hvv, hrv]
        try rfl
    | some v =>
      cases hrv : e.resolved with
      | none =>
        simp [Except.bind, canonNode, KVal.asString, hroot, hiv, hvv, hrv,
          parseSemVer_display]
        try rfl
      | some r =>
        simp [Except.bind, canonNode, KVal.asString, hroot, hiv, hvv, hrv,
          parseSemVer_display]
        try rfl
  | some i =>
    cases hvv : e.version with
    | none =>
      cases hrv : e.resolved with
      | none =>
        simp [Except.bind, canonNode, KVal.asString, hroot, hiv, hvv, hrv,
          parseIntegrity_display]
        try rfl
      | some r =>
        simp [Except.bind, canonNode, KVal.asString, hroot, hiv, hvv, hrv,
          parseIntegrity_display]
        try rfl
    | some v =>
      cases hrv : e.resolved with
      | none =>
        simp [Except.bind, canonNode, KVal.asString, hroot, hiv, hvv, hrv,
          parseSemVer_display, parseIntegrity_display]
        try rfl
      | some r =>
        simp [Except.bind, canonNode, KVal.asString, hroot, hiv, hvv, hrv,
          parseSemVer_display, parseIntegrity_display]
        try rfl

theorem resPart_none (b : Bool) (io : Option Integrity) :
    resPart b none io = [] := rfl

theorem children_get_version_rt (e : LockfileNode)
    (hres : e.resolved = none) :
    docGetArg "version" (serializedChildren e) =
      e.version.map fun v => KVal.str v.val := by
  unfold docGetArg serializedChildren
  rw [hres, resPart_none, List.nil_append, docGet_verPart_hit]
  · cases e.version with
    | none => rfl
    | some v => rfl
  · rw [docGet_depPart _ _ _ _ (by decide), docGet_depPart _ _ _ _ (by decide),
      docGet_depPart _ _ _ _ (by decide),
      docGet_depPart_last _ _ _ (by decide)]

theorem children_get_resolved_rt (e : LockfileNode)
    (hres : e.resolved = none) :
    docGetArg "resolved" (serializedChildren e) = none := by
  unfold docGetArg serializedChildren
  rw [hres, resPart_none, List.nil_append, docGet_verPart _ _ _ (by decide),
    docGet_depPart _ _ _ _ (by decide), docGet_depPart _ _ _ _ (by decide),
    docGet_depPart _ _ _ _ (by decide), docGet_depPart_last _ _ _ (by decide)]
  rfl

theorem children_get_integrity_rt (e : LockfileNode)
    (hres : e.resolved = none) :
    docGetArg "integrity" (serializedChildren e) = none := by
  unfold docGetArg serializedChildren
  rw [hres, resPart_none, List.nil_append, docGet_verPart _ _ _ (by decide),
    docGet_depPart _ _ _ _ (by decide), docGet_depPart _ _ _ _ (by decide),
    docGet_depPart _ _ _ _ (by decide), docGet_depPart_last _ _ _ (by decide)]
  rfl

theorem children_get_deps_rt (e : LockfileNode) (hres : e.resolved = none) :
    docGet "dependencies" (serializedChildren e) =
      if e.dependencies.isEmpty then none
      else some (toKdlDeps "dependencies" e.dependencies) := by
  unfold serializedChildren
  rw [hres, resPart_none, List.nil_append, docGet_verPart _ _ _ (by decide),
    docGet_depPart_hit]
  rw [docGet_depPart _ _ _ _ (by decide), docGet_depPart _ _ _ _ (by decide),
    docGet_depPart_last _ _ _ (by decide)]

theorem children_get_devDeps_rt (e : LockfileNode) (hres : e.resolved = none) :
    docGet "dev-dependencies" (serializedChildren e) =
      if e.dev_dependencies.isEmpty then none
      else some (toKdlDeps "dev-dependencies" e.dev_dependencies) := by
  unfold serializedChildren
  rw [hres, resPart_none, List.nil_append, docGet_verPart _ _ _ (by decide),
    docGet_depPart _ _ _ _ (by decide), docGet_depPart_hit]
  rw [docGet_depPart _ _ _ _ (by decide), docGet_depPart_last _ _ _ (by decide)]

theorem children_get_peerDeps_rt (e : LockfileNode) (hres : e.resolved = none) :
    docGet "peer-dependencies" (serializedChildren e) =
      if e.peer_dependencies.isEmpty then none
      else some (toKdlDeps "peer-dependencies" e.peer_dependencies) := by
  unfold serializedChildren
  rw [hres, resPart_none, List.nil_append, docGet_verPart _ _ _ (by decide),
    docGet_depPart _ _ _ _ (by decide), docGet_depPart _ _ _ _ (by decide),
    docGet_depPart_hit]
  rw [docGet_depPart_last _ _ _ (by decide)]

theorem children_get_optDeps_rt (e : LockfileNode) (hres : e.resolved = none) :
    docGet "optional-dependencies" (serializedChildren e) =
      if e.optional_dependencies.isEmpty then none
      else some (toKdlDeps "optional-dependencies" e.optional_dependencies) := by
  unfold serializedChildren
  rw [hres, resPart_none, List.nil_append, docGet_verPart _ _ _ (by decide),
    docGet_depPart _ _ _ _ (by decide), docGet_depPart _ _ _ _ (by decide),
    docGet_depPart _ _ _ _ (by decide), docGet_depPart_hit_last]

theorem from_kdl_to_kdl_root (r : LockfileNode) (hv : validRootB r = true) :
    LockfileNode.from_kdl r.to_kdl true = Except.ok (canonNode r) := by
  rw [validRootB] at hv
  simp only [Bool.and_eq_true] at hv
  obtain ⟨⟨⟨⟨⟨⟨⟨⟨hroot, hpath⟩, hname⟩, hres⟩, hint⟩, hnd1⟩, hnd2⟩, hnd3⟩,
    hnd4⟩ := hv
  rw [beq_iff_eq] at hname
  rw [Option.isNone_iff_eq_none] at hres hint
  have hpe : r.path = [] := List.isEmpty_iff.mp hpath
  have hdep1 : fromKdlDeps (serializedChildren r) "dependencies" =
      sortDepPairs r.dependencies :=
    fromKdlDeps_of_get _ _ _ (children_get_deps_rt r hres) hnd1
  have hdep2 : fromKdlDeps (serializedChildren r) "dev-dependencies" =
      sortDepPairs r.dev_dependencies :=
    fromKdlDeps_of_get _ _ _ (children_get_devDeps_rt r hres) hnd2
  have hdep3 : fromKdlDeps (serializedChildren r) "peer-dependencies" =
      sortDepPairs r.peer_dependencies :=
    fromKdlDeps_of_get _ _ _ (children_get_peerDeps_rt r hres) hnd3
  have hdep4 : fromKdlDeps (serializedChildren r) "optional-dependencies" =
      sortDepPairs r.optional_dependencies :=
    fromKdlDeps_of_get _ _ _ (children_get_optDeps_rt r hres) hnd4
  unfold LockfileNode.from_kdl
  simp only [to_kdl_childrenOrEmpty, to_kdl_entries, pathArgs_roundtrip,
    hdep1, hdep2, hdep3, hdep4, children_get_version_rt r hres,
    children_get_resolved_rt r hres, children_get_integrity_rt r hres]
  cases hvv : r.version with
  | none =>
    simp [Except.bind, canonNode, KVal.asString, hroot, hname.symm, hvv, hpe,
      hres, hint]
    try rfl
  | some v =>
    simp [Except.bind, canonNode, KVal.asString, hroot, hname.symm, hvv, hpe,
      hres, hint, parseSemVer_display]
    try rfl

/-! ## Lemmas: document-level round trip -/

theorem mapM_ok_of_forall {α β : Type} (f : α → Except NmError β)
    (g : α → β) :
    ∀ (l : List α), (∀ a ∈ l, f a = Except.ok (g a)) →
      l.mapM f = Except.ok (l.map g) := by
  intro l
  induction l with
  | nil => intro _; rfl
  | cons a t ih =>
    intro h
    rw [List.mapM_cons, h a (List.mem_cons_self a t),
      ih fun x hx => h x (List.mem_cons_of_mem a hx)]
    rfl

theorem mapM_map {α β γ : Type} (f : β → Except NmError γ) (m : α → β) :
    ∀ (l : List α), (l.map m).mapM f = l.mapM (fun a => f (m a)) := by
  intro l
  induction l with
  | nil => rfl
  | cons a t ih => rw [List.map_cons, List.mapM_cons, List.mapM_cons, ih]

theorem all_map_keys {α β : Type} {eq : String → String → Bool} (f : α → β)
    (k : String) :
    ∀ (t : List (String × α)),
      ((t.map fun p => (p.1, f p.2)).all fun q => !eq k q.1) =
        t.all fun q => !eq k q.1 := by
  intro t
  induction t with
  | nil => rfl
  | cons q t2 ih2 => simp only [List.map_cons, List.all_cons, ih2]

theorem nodupKeysBy_map_val {α β : Type} {eq : String → String → Bool}
    (f : α → β) :
    ∀ (l : List (String × α)),
      nodupKeysBy eq (l.map fun p => (p.1, f p.2)) = nodupKeysBy eq l := by
  intro l
  induction l with
  | nil => rfl
  | cons p t ih =>
    show ((t.map fun p => (p.1, f p.2)).all (fun q => !eq p.1 q.1) &&
        nodupKeysBy eq (t.map fun p => (p.1, f p.2))) = _
    rw [ih, all_map_keys]
    rfl

theorem validLockfile_parts {s : Lockfile} (hv : validLockfileB s = true) :
    s.version < 2 ^ 63 ∧ validRootB s.root = true ∧
      (∀ p ∈ s.packages, validEntryB p.2 = true ∧ p.1 = joinKey p.2.path) ∧
      nodupKeysBy uciEq s.packages = true := by
  rw [validLockfileB] at hv
  simp only [Bool.and_eq_true] at hv
  obtain ⟨⟨⟨hver, hroot⟩, hpkgs⟩, hnd⟩ := hv
  refine ⟨by simpa using hver, hroot, ?_, hnd⟩
  intro p hp
  have := (List.all_eq_true.mp hpkgs) p hp
  rw [Bool.and_eq_true] at this
  exact ⟨this.1, by simpa using this.2⟩

theorem to_kdl_doc (s : Lockfile) :
    s.to_kdl =
      KNode.mk "lockfile-version" [⟨none, KVal.int (toI64 s.version)⟩] none ::
        s.root.to_kdl ::
        (sortPackages s.packages).map fun p => p.2.to_kdl := rfl

theorem pkgNodes_to_kdl (s : Lockfile) (hroot : s.root.is_root = true)
    (hpkg : ∀ p ∈ s.packages, p.2.is_root = false) :
    (s.to_kdl).filter (fun n => n.name == "pkg") =
      (sortPackages s.packages).map fun p => p.2.to_kdl := by
  rw [to_kdl_doc]
  rw [List.filter_cons, List.filter_cons]
  have h1 : ((KNode.mk "lockfile-version"
      [⟨none, KVal.int (toI64 s.version)⟩] none).name == "pkg") = false := by
    rfl
  have h2 : (s.root.to_kdl.name == "pkg") = false := by
    rw [to_kdl_name_root s.root hroot]
    rfl
  rw [h1, h2]
  simp only [Bool.false_eq_true, if_false]
  apply List.filter_eq_self.mpr
  intro n hn
  rcases List.mem_map.mp hn with ⟨p, hp, hpn⟩
  have hmem : p ∈ s.packages := (sortPackages_perm s.packages).mem_iff.mp hp
  rw [← hpn, to_kdl_name_nonroot p.2 (hpkg p hmem)]
  rfl

theorem collectPkgPairs_to_kdl (s : Lockfile) (hv : validLockfileB s = true) :
    collectPkgPairs s.to_kdl =
      Except.ok ((sortPackages s.packages).map fun p =>
        (p.1, canonNode p.2)) := by
  obtain ⟨_, hroot, hpkgs, _⟩ := validLockfile_parts hv
  have hrootb : s.root.is_root = true := by
    have := hroot
    rw [validRootB] at this
    simp only [Bool.and_eq_true] at this
    exact this.1.1.1.1.1.1.1.1
  unfold collectPkgPairs
  rw [pkgNodes_to_kdl s hrootb fun p hp => by
    have hvq := (hpkgs p hp).1
    rw [validEntryB] at hvq
    simp only [Bool.and_eq_true, Bool.not_eq_true'] at hvq
    exact hvq.1.1.1.1.1.1.1]
  rw [mapM_map]
  apply mapM_ok_of_forall
  intro p hp
  have hmem : p ∈ s.packages := (sortPackages_perm s.packages).mem_iff.mp hp
  rw [from_kdl_to_kdl_nonroot p.2 (hpkgs p hmem).1]
  show Except.ok (joinKey (canonNode p.2).path, canonNode p.2) = _
  have hpp : (canonNode p.2).path = p.2.path := rfl
  rw [hpp, ← (hpkgs p hmem).2]

theorem toI64_small {v : Nat} (h : v < 2 ^ 63) : toI64 v = (v : Int) := by
  unfold toI64
  have h64 : v < 2 ^ 64 := lt_trans h (by norm_num)
  rw [Nat.mod_eq_of_lt h64]
  rw [if_pos h]

theorem docGetArg_version_to_kdl (s : Lockfile) :
    docGetArg "lockfile-version" s.to_kdl =
      some (KVal.int (toI64 s.version)) := rfl

theorem docGet_root_to_kdl (s : Lockfile) (hroot : s.root.is_root = true) :
    docGet "root" s.to_kdl = some s.root.to_kdl := by
  rw [to_kdl_doc, docGet_cons]
  have h1 : ¬((KNode.mk "lockfile-version"
      [⟨none, KVal.int (toI64 s.version)⟩] none).name = "root") := by
    rw [KNode.name]
    decide
  rw [if_neg h1, docGet_cons, if_pos (by rw [to_kdl_name_root s.root hroot])]

theorem from_kdl_to_kdl (s : Lockfile) (hv : validLockfileB s = true) :
    Lockfile.from_kdl s.to_kdl = Except.ok (canonLock s) := by
  obtain ⟨hver, hroot, hpkgs, hnd⟩ := validLockfile_parts hv
  have hrootb : s.root.is_root = true := by
    have := hroot
    rw [validRootB] at this
    simp only [Bool.and_eq_true] at this
    exact this.1.1.1.1.1.1.1.1
  have hget : imapOfList uciEq ((sortPackages s.packages).map fun p =>
      (p.1, canonNode p.2)) =
      (sortPackages s.packages).map fun p => (p.1, canonNode p.2) := by
    apply imapOfList_eq_self uciEq_sym
    rw [nodupKeysBy_map_val]
    exact nodupKeysBy_perm uciEq_sym (sortPackages_perm s.packages).symm hnd
  unfold Lockfile.from_kdl
  rw [collectPkgPairs_to_kdl s hv, docGetArg_version_to_kdl,
    docGet_root_to_kdl s hrootb]
  have hbind : (some (KVal.int (toI64 s.version))).bind KVal.asI64 =
      some (toI64 s.version) := rfl
  rw [hbind, toI64_small hver]
  have hpos : (0 : Int) ≤ (s.version : Int) := Int.natCast_nonneg s.version
  simp only [Except.bind, pure_bind, hpos, if_true, if_pos hpos,
    from_kdl_to_kdl_root s.root hroot, Int.toNat_natCast, canonLock]
  exact congrArg Except.ok (by
    show Lockfile.mk s.version (canonNode s.root)
        (imapOfList uciEq ((sortPackages s.packages).map fun p =>
          (p.1, canonNode p.2))) =
      Lockfile.mk s.version (canonNode s.root)
        ((sortPackages s.packages).map fun p => (p.1, canonNode p.2))
    rw [hget])

theorem depsPermEq_canon (e : LockfileNode) : depsPermEq (canonNode e) e :=
  ⟨rfl, rfl, rfl, rfl, rfl, rfl, sortDepPairs_perm _, sortDepPairs_perm _,
    sortDepPairs_perm _, sortDepPairs_perm _⟩

theorem canonLock_upToOrder (s : Lockfile) (hv : validLockfileB s = true) :
    lockUpToOrder (canonLock s) s := by
  obtain ⟨_, _, _, hnd⟩ := validLockfile_parts hv
  refine ⟨rfl, depsPermEq_canon s.root, ?_, ?_⟩
  · show ((sortPackages s.packages).map fun p => (p.1, canonNode p.2)).length =
      s.packages.length
    rw [List.length_map]
    exact (sortPackages_perm s.packages).length_eq
  · intro k
    have h1 : imapGet uciEq k (canonLock s).packages =
        (imapGet uciEq k (sortPackages s.packages)).map canonNode :=
      imapGet_map canonNode k (sortPackages s.packages)
    have hnds : nodupKeysBy uciEq (sortPackages s.packages) = true :=
      nodupKeysBy_perm uciEq_sym (sortPackages_perm s.packages).symm hnd
    have h2 : imapGet uciEq k (sortPackages s.packages) =
        imapGet uciEq k s.packages :=
      imapGet_perm uciEq_sym uciEq_trans k (sortPackages_perm s.packages) hnds
    rw [h1, h2]
    cases hq : imapGet uciEq k s.packages with
    | none => exact trivial
    | some e2 => exact depsPermEq_canon e2

/-! ## Lemmas: parse inversion and error precedence -/

theorem mapM_ok_mem_fwd {α β : Type} (f : α → Except NmError β) :
    ∀ (l : List α) (l2 : List β), l.mapM f = Except.ok l2 →
      ∀ a ∈ l, ∃ b ∈ l2, f a = Except.ok b := by
  intro l
  induction l with
  | nil => intro l2 _ a ha; cases ha
  | cons x t ih =>
    intro l2 h a ha
    rw [List.mapM_cons] at h
    cases hf : f x with
    | error err => rw [hf] at h; simp [Except.bind, bind] at h
    | ok b =>
      rw [hf] at h
      cases hm : t.mapM f with
      | error err => rw [hm] at h; simp [Except.bind, bind] at h
      | ok bs =>
        rw [hm] at h
        simp only [bind, Except.bind, pure] at h
        cases h
        rcases List.mem_cons.mp ha with hax | hat
        · exact ⟨b, List.mem_cons_self b bs, hax ▸ hf⟩
        · rcases ih bs hm a hat with ⟨b2, hb2, hfb⟩
          exact ⟨b2, List.mem_cons_of_mem b hb2, hfb⟩

theorem mapM_ok_mem_rev {α β : Type} (f : α → Except NmError β) :
    ∀ (l : List α) (l2 : List β), l.mapM f = Except.ok l2 →
      ∀ b ∈ l2, ∃ a ∈ l, f a = Except.ok b := by
  intro l
  induction l with
  | nil =>
    intro l2 h b hb
    rw [List.mapM_nil] at h
    cases h
    cases hb
  | cons x t ih =>
    intro l2 h b hb
    rw [List.mapM_cons] at h
    cases hf : f x with
    | error err => rw [hf] at h; simp [Except.bind, bind] at h
    | ok b1 =>
      rw [hf] at h
      cases hm : t.mapM f with
      | error err => rw [hm] at h; simp [Except.bind, bind] at h
      | ok bs =>
        rw [hm] at h
        simp only [bind, Except.bind, pure] at h
        cases h
        rcases List.mem_cons.mp hb with hbx | hbt
        · exact ⟨x, List.mem_cons_self x t, hbx ▸ hf⟩
        · rcases ih bs hm b hbt with ⟨a2, ha2, hfa⟩
          exact ⟨a2, List.mem_cons_of_mem x ha2, hfa⟩

theorem imapGet_some_mem {α : Type} {eq : String → String → Bool}
    {k : String} {v : α} :
    ∀ {l : List (String × α)}, imapGet eq k l = some v →
      ∃ k2, (k2, v) ∈ l ∧ eq k k2 = true := by
  intro l
  induction l with
  | nil => intro h; cases h
  | cons p rest ih =>
    intro h
    rw [imapGet] at h
    by_cases hk : eq k p.1 = true
    · rw [if_pos hk] at h
      cases h
      exact ⟨p.1, List.mem_cons_self p rest, hk⟩
    · rw [if_neg hk] at h
      rcases ih h with ⟨k2, hm, he⟩
      exact ⟨k2, List.mem_cons_of_mem p hm, he⟩

theorem lastMatch_isSome_of_mem {α : Type} {eq : String → String → Bool}
    {k k2 : String} {v : α} {l : List (String × α)}
    (hm : (k2, v) ∈ l) (he : eq k k2 = true) :
    (lastMatch eq k l).isSome = true := by
  unfold lastMatch
  have hs : (List.find? (fun p => eq k p.1) l.reverse).isSome = true :=
    List.find?_isSome.mpr ⟨(k2, v), List.mem_reverse.mpr hm, he⟩
  cases hf : List.find? (fun p => eq k p.1) l.reverse with
  | none => rw [hf] at hs; cases hs
  | some q => rfl

theorem from_kdl_is_root (node : KNode) (b : Bool) (e : LockfileNode)
    (h : LockfileNode.from_kdl node b = Except.ok e) : e.is_root = b := by
  unfold LockfileNode.from_kdl at h
  simp only [bind, Except.bind, pure] at h
  repeat' split at h
  all_goals first
    | (cases h; rfl)
    | cases h

theorem from_npm_path_inv (ps : String) (npm : NpmEntry) (e : LockfileNode)
    (h : LockfileNode.from_npm ps npm = Except.ok e) :
    e.path = (strSplitOn ("/" ++ ps) "/node_modules/").drop 1 ∧
      e.is_root = ((strSplitOn ("/" ++ ps) "/node_modules/").drop 1).isEmpty ∧
      e.resolved = npm.resolved := by
  unfold LockfileNode.from_npm at h
  simp only [bind, Except.bind, pure] at h
  repeat' split at h
  all_goals first
    | (cases h; exact ⟨rfl, rfl, rfl⟩)
    | cases h

theorem from_kdl_lock_inv (doc : KDoc) (lf : Lockfile)
    (h : Lockfile.from_kdl doc = Except.ok lf) :
    (∃ pairs, collectPkgPairs doc = Except.ok pairs ∧
      lf.packages = imapOfList uciEq pairs) ∧
    (∃ n, docGet "root" doc = some n ∧
      LockfileNode.from_kdl n true = Except.ok lf.root) := by
  unfold Lockfile.from_kdl at h
  simp only [bind, Except.bind, pure] at h
  repeat' split at h
  all_goals try cases h
  all_goals exact ⟨⟨_, by assumption, rfl⟩, _, by assumption, by assumption⟩

theorem from_kdl_version_inv (doc : KDoc) (lf : Lockfile)
    (h : Lockfile.from_kdl doc = Except.ok lf) :
    ((docGetArg "lockfile-version" doc).bind KVal.asI64 = none ∧
      lf.version = 1) ∨
    (∃ i, (docGetArg "lockfile-version" doc).bind KVal.asI64 = some i ∧
      0 ≤ i ∧ lf.version = i.toNat) := by
  unfold Lockfile.from_kdl at h
  simp only [bind, Except.bind, pure] at h
  repeat' split at h
  all_goals try cases h
  all_goals simp_all [Except.pure]

theorem from_npm_lock_inv (lock : NpmPackageLock) (lf : Lockfile)
    (h : Lockfile.from_npm lock = Except.ok lf) :
    (∃ pairs, collectNpmPairs lock.packages = Except.ok pairs ∧
      lf.packages = imapOfList uciEq pairs) ∧
    (∃ entry, imapGet strEq "" lock.packages = some entry ∧
      LockfileNode.from_npm "" entry = Except.ok lf.root) := by
  unfold Lockfile.from_npm at h
  simp only [bind, Except.bind, pure] at h
  repeat' split at h
  all_goals try cases h
  all_goals exact ⟨⟨_, by assumption, rfl⟩, _, by assumption, by assumption⟩

theorem from_kdl_missing_root (doc : KDoc)
    (pairs : List (String × LockfileNode))
    (hpairs : collectPkgPairs doc = Except.ok pairs)
    (hver : ∀ i, (docGetArg "lockfile-version" doc).bind KVal.asI64 = some i →
      0 ≤ i)
    (hroot : docGet "root" doc = none) :
    Lockfile.from_kdl doc = Except.error (NmError.kdlLockMissingRoot doc) := by
  unfold Lockfile.from_kdl
  rw [hpairs, hroot]
  cases hv : (docGetArg "lockfile-version" doc).bind KVal.asI64 with
  | none => rfl
  | some i =>
    simp only [Except.bind, bind, pure, Except.pure, hver i hv, if_true]
    try rfl

theorem from_kdl_ok_parts (doc : KDoc)
    (pairs : List (String × LockfileNode)) (n : KNode) (r : LockfileNode)
    (hpairs : collectPkgPairs doc = Except.ok pairs)
    (hver : ∀ i, (docGetArg "lockfile-version" doc).bind KVal.asI64 = some i →
      0 ≤ i)
    (hroot : docGet "root" doc = some n)
    (hr : LockfileNode.from_kdl n true = Except.ok r) :
    ∃ lf, Lockfile.from_kdl doc = Except.ok lf ∧
      lf.packages = imapOfList uciEq pairs ∧ lf.root = r := by
  unfold Lockfile.from_kdl
  rw [hpairs, hroot]
  cases hv : (docGetArg "lockfile-version" doc).bind KVal.asI64 with
  | none =>
    refine ⟨Lockfile.mk 1 r (imapOfList uciEq pairs), ?_, rfl, rfl⟩
    simp only [Except.bind, bind, pure, Except.pure, hr]
    try rfl
  | some i =>
    refine ⟨Lockfile.mk i.toNat r (imapOfList uciEq pairs), ?_, rfl, rfl⟩
    simp only [Except.bind, bind, pure, Except.pure, hver i hv, if_true, hr]
    try rfl

theorem from_kdl_version_invalid (doc : KDoc)
    (pairs : List (String × LockfileNode)) (i : Int)
    (hpairs : collectPkgPairs doc = Except.ok pairs)
    (hv : (docGetArg "lockfile-version" doc).bind KVal.asI64 = some i)
    (hneg : i < 0) :
    Lockfile.from_kdl doc = Except.error NmError.invalidLockfileVersion := by
  unfold Lockfile.from_kdl
  rw [hpairs, hv]
  have hn : ¬0 ≤ i := Int.not_le.mpr hneg
  simp only [Except.bind, bind, hn, if_false]
  try rfl

theorem from_npm_serde_err (lock : NpmPackageLock) (v : Int)
    (hv : lock.lockfile_version = some v) (hout : v < 0 ∨ 2 ^ 64 ≤ v) :
    Lockfile.from_npm lock = Except.error NmError.serdeJsonError := by
  unfold Lockfile.from_npm
  have hs : serdeUsize v = none := by
    unfold serdeUsize
    rw [if_neg]
    intro hand
    rcases hout with h | h
    · exact absurd hand.1 (Int.not_le.mpr h)
    · exact absurd hand.2 (Int.not_lt.mpr h)
  rw [hv]
  simp only [Except.bind, bind, pure, Except.pure, hs]
  try rfl

theorem from_npm_missing_root (lock : NpmPackageLock)
    (pairs : List (String × LockfileNode))
    (hser : ∀ v, lock.lockfile_version = some v → 0 ≤ v ∧ v < 2 ^ 64)
    (hpairs : collectNpmPairs lock.packages = Except.ok pairs)
    (hroot : imapGet strEq "" lock.packages = none) :
    Lockfile.from_npm lock = Except.error (NmError.npmLockMissingRoot lock) := by
  unfold Lockfile.from_npm
  rw [hroot]
  cases hv : lock.lockfile_version with
  | none =>
    simp only [Except.bind, bind, pure, Except.pure, hpairs]
    try rfl
  | some v =>
    have hs : serdeUsize v = some v.toNat := by
      unfold serdeUsize
      rw [if_pos (hser v hv)]
    have hlt : v.toNat < 2 ^ 64 := by
      have h2 := (hser v hv).2
      omega
    simp only [Except.bind, bind, pure, Except.pure, hs, hpairs, hlt, if_true]
    try rfl

theorem from_npm_ok_parts (lock : NpmPackageLock)
    (pairs : List (String × LockfileNode)) (entry : NpmEntry)
    (r : LockfileNode)
    (hser : ∀ v, lock.lockfile_version = some v → 0 ≤ v ∧ v < 2 ^ 64)
    (hpairs : collectNpmPairs lock.packages = Except.ok pairs)
    (hroot : imapGet strEq "" lock.packages = some entry)
    (hr : LockfileNode.from_npm "" entry = Except.ok r) :
    ∃ lf, Lockfile.from_npm lock = Except.ok lf ∧
      lf.packages = imapOfList uciEq pairs ∧ lf.root = r := by
  unfold Lockfile.from_npm
  rw [hroot]
  cases hv : lock.lockfile_version with
  | none =>
    refine ⟨Lockfile.mk 3 r (imapOfList uciEq pairs), ?_, rfl, rfl⟩
    simp only [Except.bind, bind, pure, Except.pure, hpairs, hr]
    try rfl
  | some v =>
    have hs : serdeUsize v = some v.toNat := by
      unfold serdeUsize
      rw [if_pos (hser v hv)]
    have hlt : v.toNat < 2 ^ 64 := by
      have h2 := (hser v hv).2
      omega
    refine ⟨Lockfile.mk v.toNat r (imapOfList uciEq pairs), ?_, rfl, rfl⟩
    simp only [Except.bind, bind, pure, Except.pure, hs, hpairs, hlt, if_true, hr]
    try rfl

theorem from_npm_missing_name (ps : String) (npm : NpmEntry)
    (hps : ¬ps = "")
    (hsplit : (strSplitOn ("/" ++ ps) "/node_modules/").drop 1 =
      ([] : List String))
    (hname : npm.name = none) :
    LockfileNode.from_npm ps npm =
      Except.error (NmError.npmLockMissingName npm) := by
  unfold LockfileNode.from_npm
  rw [hsplit, hname]
  simp only [Except.bind, bind, hps, if_false]
  rfl

/-! ## Claim theorems -/

/-- C8: for every entry in which both `resolved` and `version` are absent,
`to_package` returns the successful "no package" outcome (`Ok(None)`), not
an error, and performs no client call. -/
theorem c8_no_info_returns_none (e : LockfileNode) (c : Client)
    (h1 : e.resolved = none) (h2 : e.version = none) :
    e.to_package c = (Except.ok none, 0) := by
  unfold LockfileNode.to_package LockfileNode.specString
  rw [h1, h2]

theorem c8_no_info_returns_none_witness :
    c8Wit.to_package c8Client = (Except.ok none, 0) :=
  c8_no_info_returns_none c8Wit c8Client rfl rfl

/-- C9: serialization emits the format version through a `u64 as i64`
cast: for a stored version up to `2^63 - 1` the emitted leaf equals the
stored version, and beyond that it is the two's-complement wrapped
(negative) value. -/
theorem c9_version_cast (s : Lockfile) (hv : s.version < 2 ^ 64) :
    docGetArg "lockfile-version" s.to_kdl =
      some (KVal.int (toI64 s.version)) ∧
    (s.version < 2 ^ 63 → toI64 s.version = (s.version : Int)) ∧
    (2 ^ 63 - 1 < s.version →
      toI64 s.version = (s.version : Int) - 2 ^ 64 ∧ toI64 s.version < 0) := by
  refine ⟨rfl, fun h => toI64_small h, fun h => ?_⟩
  unfold toI64
  rw [Nat.mod_eq_of_lt hv]
  have hbig : ¬s.version < 2 ^ 63 := by omega
  rw [if_neg hbig]
  refine ⟨rfl, ?_⟩
  have hc : (s.version : Int) < 2 ^ 64 := by exact_mod_cast hv
  omega

theorem c9_version_cast_witness :
    docGetArg "lockfile-version" c9WitA.to_kdl =
      some (KVal.int (toI64 c9WitA.version)) ∧
    toI64 c9WitB.version = (c9WitB.version : Int) - 2 ^ 64 ∧
      toI64 c9WitB.version < 0 :=
  ⟨(c9_version_cast c9WitA (by decide)).1,
    (c9_version_cast c9WitB (by decide)).2.2 (by decide)⟩

/-- C4: for every entry whose specifier parses to a registry target:
missing version fails with the missing-version error; a present version
with a resolved locator builds the exact registry resolution (name,
version, parsed URL, entry integrity) with no live client call, or the
URL-parse error carrying the offending string; a present version with no
resolved locator invokes the client's live resolve exactly once. -/
theorem c4_registry_target :
    (∀ (e : LockfileNode) (c : Client) (s : String) (sp : PackageSpec)
      (tn tr : String), e.specString = some s →
      parsePackageSpec s = Except.ok sp →
      sp.target = PackageSpec.npm tn tr → e.version = none →
      e.to_package c = (Except.error NmError.missingVersion, 0)) ∧
    (∀ (e : LockfileNode) (c : Client) (s : String) (sp : PackageSpec)
      (tn tr : String) (v : SemVer) (u : String), e.specString = some s →
      parsePackageSpec s = Except.ok sp →
      sp.target = PackageSpec.npm tn tr → e.version = some v →
      e.resolved = some u →
      (∀ pu, parseUrl u = some pu →
        e.to_package c = (Except.ok (some (resolveFrom e.name
          (PackageResolution.npmRes tn v pu e.integrity))), 0)) ∧
      (parseUrl u = none →
        e.to_package c = (Except.error (NmError.urlParseError u), 0))) ∧
    (∀ (e : LockfileNode) (c : Client) (s : String) (sp : PackageSpec)
      (tn tr : String) (v : SemVer), e.specString = some s →
      parsePackageSpec s = Except.ok sp →
      sp.target = PackageSpec.npm tn tr → e.version = some v →
      e.resolved = none →
      e.to_package c = ((c.resolveLive sp.toStr).map some, 1)) := by
  refine ⟨?_, ?_, ?_⟩
  · intro e c s sp tn tr hs hsp ht hv
    unfold LockfileNode.to_package
    simp only [hs, hsp, ht, hv]
  · intro e c s sp tn tr v u hs hsp ht hv hr
    constructor
    · intro pu hpu
      unfold LockfileNode.to_package
      simp only [hs, hsp, ht, hv, hr, hpu]
    · intro hpu
      unfold LockfileNode.to_package
      simp only [hs, hsp, ht, hv, hr, hpu]
  · intro e c s sp tn tr v hs hsp ht hv hr
    unfold LockfileNode.to_package
    simp only [hs, hsp, ht, hv, hr]

theorem c4_registry_target_witness :
    c4Wit1.to_package c4Client = (Except.error NmError.missingVersion, 0) ∧
    c4Wit2.to_package c4Client = (Except.ok (some (resolveFrom "foo"
      (PackageResolution.npmRes "foo" c4SemVer c4Url (some c4Integ)))), 0) ∧
    c4Wit4.to_package c4Client =
      (Except.error (NmError.urlParseError "notaurl"), 0) ∧
    c4Wit3.to_package c4Client =
      ((c4Client.resolveLive (PackageSpec.npm "foo" "1.0.0").toStr).map some,
        1) := by
  refine ⟨?_, ?_, ?_, ?_⟩
  · exact c4_registry_target.1 c4Wit1 c4Client "foo@1.2.3"
      (PackageSpec.npm "foo" "1.2.3") "foo" "1.2.3" rfl rfl rfl rfl
  · exact (c4_registry_target.2.1 c4Wit2 c4Client "foo@1.0.0"
      (PackageSpec.npm "foo" "1.0.0") "foo" "1.0.0" c4SemVer
      "https://reg/foo.tgz" rfl rfl rfl rfl rfl).1 c4Url rfl
  · exact (c4_registry_target.2.1 c4Wit4 c4Client "foo@notaurl"
      (PackageSpec.npm "foo" "notaurl") "foo" "notaurl" c4SemVer
      "notaurl" rfl rfl rfl rfl rfl).2 rfl
  · exact c4_registry_target.2.2 c4Wit3 c4Client "foo@1.0.0"
      (PackageSpec.npm "foo" "1.0.0") "foo" "1.0.0" c4SemVer
      rfl rfl rfl rfl rfl

/-- C10 (amended): in the compatibility codec, a non-empty packages key
with no nesting marker derives an empty path, so a successfully parsed
entry has `is_root = true` and its canonical key is the empty string
(colliding with the root-derived entry); when such an entry carries no
explicit name, parsing instead fails with the missing-name error. -/
theorem c10_flat_key_amended :
    (∀ (ps : String) (npm : NpmEntry) (e : LockfileNode),
      LockfileNode.from_npm ps npm = Except.ok e →
      (strSplitOn ("/" ++ ps) "/node_modules/").drop 1 = [] →
      e.path = [] ∧ e.is_root = true ∧ joinKey e.path = "") ∧
    (∀ (ps : String) (npm : NpmEntry), ¬ps = "" →
      (strSplitOn ("/" ++ ps) "/node_modules/").drop 1 = [] →
      npm.name = none →
      LockfileNode.from_npm ps npm =
        Except.error (NmError.npmLockMissingName npm)) := by
  constructor
  · intro ps npm e h hsplit
    obtain ⟨hpath, hroot, _⟩ := from_npm_path_inv ps npm e h
    rw [hsplit] at hpath hroot
    exact ⟨hpath, hroot, by rw [hpath]; rfl⟩
  · intro ps npm hps hsplit hname
    exact from_npm_missing_name ps npm hps hsplit hname

theorem c10_flat_key_witness :
    (c10WitNode.path = [] ∧ c10WitNode.is_root = true ∧
      joinKey c10WitNode.path = "") ∧
    LockfileNode.from_npm "foo" npmEntryEmpty =
      Except.error (NmError.npmLockMissingName npmEntryEmpty) :=
  ⟨c10_flat_key_amended.1 "foo" c10WitEntry c10WitNode rfl rfl,
    c10_flat_key_amended.2 "foo" npmEntryEmpty (by decide) rfl rfl⟩

/-- C10 counterexample: on a packages map with the mandatory root and a
flat key `foo` whose entry has no explicit name, parsing fails with the
missing-name error, so no entry is stored at all — refuting the claim
that the derived entry is stored in the entries map. -/
theorem c10_flat_key_counterexample :
    Lockfile.from_npm c10CexLock =
      Except.error (NmError.npmLockMissingName npmEntryEmpty) := rfl

/-- C3 (amended): in the document codec an absent `lockfile-version` leaf
defaults to 1, and a negative (non-`u64`) value fails with the
invalid-version error; in the compatibility codec a `lockfileVersion`
outside the `usize` range is rejected during JSON deserialization with a
deserialization error, before the codec's own invalid-version check. -/
theorem c3_version_default_and_overflow :
    (∀ (doc : KDoc) (lf : Lockfile),
      (docGetArg "lockfile-version" doc).bind KVal.asI64 = none →
      Lockfile.from_kdl doc = Except.ok lf → lf.version = 1) ∧
    (∀ (doc : KDoc) (pairs : List (String × LockfileNode)) (i : Int),
      collectPkgPairs doc = Except.ok pairs →
      (docGetArg "lockfile-version" doc).bind KVal.asI64 = some i → i < 0 →
      Lockfile.from_kdl doc = Except.error NmError.invalidLockfileVersion) ∧
    (∀ (lock : NpmPackageLock) (v : Int), lock.lockfile_version = some v →
      (v < 0 ∨ 2 ^ 64 ≤ v) →
      Lockfile.from_npm lock = Except.error NmError.serdeJsonError) := by
  refine ⟨?_, ?_, ?_⟩
  · intro doc lf hnone h
    rcases from_kdl_version_inv doc lf h with ⟨_, hv⟩ | ⟨i, hsome, _⟩
    · exact hv
    · rw [hnone] at hsome
      cases hsome
  · intro doc pairs i h1 h2 h3
    exact from_kdl_version_invalid doc pairs i h1 h2 h3
  · intro lock v h1 h2
    exact from_npm_serde_err lock v h1 h2

theorem c3_version_witness :
    c3WitParsedA.version = 1 ∧
    Lockfile.from_kdl c3WitDocB =
      Except.error NmError.invalidLockfileVersion ∧
    Lockfile.from_npm c3WitLockNeg = Except.error NmError.serdeJsonError := by
  refine ⟨?_, ?_, ?_⟩
  · exact c3_version_default_and_overflow.1 c3WitDocA c3WitParsedA rfl rfl
  · exact c3_version_default_and_overflow.2.1 c3WitDocB [] (-1) rfl rfl
      (by decide)
  · exact c3_version_default_and_overflow.2.2 c3WitLockNeg (-1) rfl
      (Or.inl (by decide))

/-- C3 counterexample: a compatibility input whose `lockfileVersion` is
`2^64` (does not fit the unsigned 64-bit representation) fails with the
JSON deserialization error, not the invalid-version error the claim
names. -/
theorem c3_version_counterexample :
    Lockfile.from_npm c3CexLock = Except.error NmError.serdeJsonError ∧
    isInvalidVersion (Lockfile.from_npm c3CexLock) = false := ⟨rfl, rfl⟩

/-- C6 (amended): an input with no root entry fails with that format's
missing-root error carrying the offending document/input, provided the
other entries themselves parse and the format version is acceptable
(entry-parse and version errors take precedence in the source's
evaluation order). -/
theorem c6_missing_root_amended :
    (∀ (doc : KDoc) (pairs : List (String × LockfileNode)),
      collectPkgPairs doc = Except.ok pairs →
      (∀ i, (docGetArg "lockfile-version" doc).bind KVal.asI64 = some i →
        0 ≤ i) →
      docGet "root" doc = none →
      Lockfile.from_kdl doc =
        Except.error (NmError.kdlLockMissingRoot doc)) ∧
    (∀ (lock : NpmPackageLock) (pairs : List (String × LockfileNode)),
      (∀ v, lock.lockfile_version = some v → 0 ≤ v ∧ v < 2 ^ 64) →
      collectNpmPairs lock.packages = Except.ok pairs →
      imapGet strEq "" lock.packages = none →
      Lockfile.from_npm lock =
        Except.error (NmError.npmLockMissingRoot lock)) :=
  ⟨fun doc pairs h1 h2 h3 => from_kdl_missing_root doc pairs h1 h2 h3,
    fun lock pairs h1 h2 h3 => from_npm_missing_root lock pairs h1 h2 h3⟩

theorem c6_missing_root_witness :
    Lockfile.from_kdl c6WitDoc =
      Except.error (NmError.kdlLockMissingRoot c6WitDoc) ∧
    Lockfile.from_npm c6WitLock =
      Except.error (NmError.npmLockMissingRoot c6WitLock) := by
  constructor
  · exact c6_missing_root_amended.1 c6WitDoc [("a", c6WitNodeA)] rfl
      (fun i h => Option.noConfusion h) rfl
  · exact c6_missing_root_amended.2 c6WitLock
      [("a", ⟨"a", false, ["a"], none, none, none, [], [], [], []⟩)]
      (fun v h => Option.noConfusion h) rfl rfl

/-- C6 counterexample: a document with no `root` node and one `pkg` node
with no positional arguments fails with the missing-name error, not the
missing-root error the claim requires for every root-less input. -/
theorem c6_missing_root_counterexample :
    Lockfile.from_kdl c6CexDoc =
      Except.error (NmError.kdlLockMissingName c6CexPkg) ∧
    isKdlMissingRoot (Lockfile.from_kdl c6CexDoc) = false := ⟨rfl, rfl⟩

/-- C1 (amended): the document codec's entries map contains no entry with
`is_root = true` (and hence never the root, whose `is_root` is true);
the compatibility codec, by contrast, always stores an entry under the
empty-string key — the key the root-derived entry is inserted under. -/
theorem c1_root_separation_amended :
    (∀ (doc : KDoc) (lf : Lockfile), Lockfile.from_kdl doc = Except.ok lf →
      lf.root.is_root = true ∧ ∀ p ∈ lf.packages, p.2.is_root = false) ∧
    (∀ (lock : NpmPackageLock) (lf : Lockfile),
      Lockfile.from_npm lock = Except.ok lf →
      (imapGet uciEq "" lf.packages).isSome = true) := by
  constructor
  · intro doc lf h
    obtain ⟨⟨pairs, hpairs, hpk⟩, ⟨n, _, hroot⟩⟩ := from_kdl_lock_inv doc lf h
    refine ⟨from_kdl_is_root n true lf.root hroot, ?_⟩
    intro p hp
    rw [hpk] at hp
    rcases mem_imapOfList_val _ p hp with ⟨q, hq, hval⟩
    unfold collectPkgPairs at hpairs
    rcases mapM_ok_mem_rev _ _ _ hpairs q hq with ⟨nq, _, hfq⟩
    cases hnode : LockfileNode.from_kdl nq false with
    | error err =>
      rw [hnode] at hfq
      exact absurd hfq (by simp [Except.bind, bind])
    | ok node =>
      rw [hnode] at hfq
      simp only [Except.bind, bind, pure, Except.pure] at hfq
      cases hfq
      rw [hval]
      exact from_kdl_is_root nq false node hnode
  · intro lock lf h
    obtain ⟨⟨pairs, hpairs, hpk⟩, ⟨entry, hentry, _⟩⟩ :=
      from_npm_lock_inv lock lf h
    rcases imapGet_some_mem hentry with ⟨k2, hmem, hk2⟩
    have hk2e : k2 = "" := by
      unfold strEq at hk2
      rw [beq_iff_eq] at hk2
      exact hk2.symm
    subst hk2e
    unfold collectNpmPairs at hpairs
    rcases mapM_ok_mem_fwd _ _ _ hpairs ("", entry) hmem with ⟨b, hb, hfb⟩
    cases hnode : LockfileNode.from_npm "" entry with
    | error err =>
      rw [hnode] at hfb
      exact absurd hfb (by simp [Except.bind, bind])
    | ok node =>
      rw [hnode] at hfb
      simp only [Except.bind, bind, pure, Except.pure] at hfb
      cases hfb
      obtain ⟨hpath, _, _⟩ := from_npm_path_inv "" entry node hnode
      have hpath0 : node.path = [] := by rw [hpath]; rfl
      have hkey : joinKey node.path = "" := by rw [hpath0]; rfl
      rw [hpk, imapOfList_lookup uciEq_sym uciEq_trans]
      refine lastMatch_isSome_of_mem hb ?_
      rw [hkey]
      decide

theorem c1_root_separation_witness :
    (Lockfile.from_kdl c3WitDocA = Except.ok c3WitParsedA →
      c3WitParsedA.root.is_root = true) ∧
    (imapGet uciEq ""
      (Lockfile.mk 3 emptyRootNode [("", emptyRootNode)]).packages).isSome =
      true := by
  constructor
  · intro h
    exact (c1_root_separation_amended.1 c3WitDocA c3WitParsedA h).1
  · exact c1_root_separation_amended.2 c1CexLock
      (Lockfile.mk 3 emptyRootNode [("", emptyRootNode)]) rfl

/-- C1 counterexample: the compatibility codec parses the minimal input
whose packages map holds only the empty key, and its entries map stores
that root-derived entry — with `is_root = true` and equal to the `root`
field — under the empty-string key, contradicting the claim that the map
never contains the root or any `is_root = true` entry. -/
theorem c1_root_separation_counterexample :
    Lockfile.from_npm c1CexLock =
      Except.ok (Lockfile.mk 3 emptyRootNode [("", emptyRootNode)]) ∧
    emptyRootNode.is_root = true ∧
    imapGet uciEq "" [("", emptyRootNode)] = some emptyRootNode :=
  ⟨rfl, rfl, rfl⟩

/-- C7: in both codecs, case-insensitively colliding path keys collapse
into a single stored entry whose value is the later-parsed one (the map
lookup equals the last matching pair of the parse-order pair list, and
stored keys are case-insensitively duplicate-free), and collisions never
cause a parse error (parsing succeeds whenever its other parts do). -/
theorem c7_collision_last_wins :
    (∀ (doc : KDoc) (lf : Lockfile) (pairs : List (String × LockfileNode)),
      Lockfile.from_kdl doc = Except.ok lf →
      collectPkgPairs doc = Except.ok pairs →
      nodupKeysBy uciEq lf.packages = true ∧
      ∀ k, imapGet uciEq k lf.packages = lastMatch uciEq k pairs) ∧
    (∀ (lock : NpmPackageLock) (lf : Lockfile)
      (pairs : List (String × LockfileNode)),
      Lockfile.from_npm lock = Except.ok lf →
      collectNpmPairs lock.packages = Except.ok pairs →
      nodupKeysBy uciEq lf.packages = true ∧
      ∀ k, imapGet uciEq k lf.packages = lastMatch uciEq k pairs) ∧
    (∀ (doc : KDoc) (pairs : List (String × LockfileNode)) (n : KNode)
      (r : LockfileNode), collectPkgPairs doc = Except.ok pairs →
      (∀ i, (docGetArg "lockfile-version" doc).bind KVal.asI64 = some i →
        0 ≤ i) →
      docGet "root" doc = some n →
      LockfileNode.from_kdl n true = Except.ok r →
      ∃ lf, Lockfile.from_kdl doc = Except.ok lf) ∧
    (∀ (lock : NpmPackageLock) (pairs : List (String × LockfileNode))
      (entry : NpmEntry) (r : LockfileNode),
      (∀ v, lock.lockfile_version = some v → 0 ≤ v ∧ v < 2 ^ 64) →
      collectNpmPairs lock.packages = Except.ok pairs →
      imapGet strEq "" lock.packages = some entry →
      LockfileNode.from_npm "" entry = Except.ok r →
      ∃ lf, Lockfile.from_npm lock = Except.ok lf) := by
  refine ⟨?_, ?_, ?_, ?_⟩
  · intro doc lf pairs h hpairs
    obtain ⟨⟨pairs2, hpairs2, hpk⟩, _⟩ := from_kdl_lock_inv doc lf h
    rw [hpairs] at hpairs2
    cases hpairs2
    rw [hpk]
    exact ⟨nodupKeysBy_imapOfList uciEq_sym pairs,
      fun k => imapOfList_lookup uciEq_sym uciEq_trans k pairs⟩
  · intro lock lf pairs h hpairs
    obtain ⟨⟨pairs2, hpairs2, hpk⟩, _⟩ := from_npm_lock_inv lock lf h
    rw [hpairs] at hpairs2
    cases hpairs2
    rw [hpk]
    exact ⟨nodupKeysBy_imapOfList uciEq_sym pairs,
      fun k => imapOfList_lookup uciEq_sym uciEq_trans k pairs⟩
  · intro doc pairs n r h1 h2 h3 h4
    rcases from_kdl_ok_parts doc pairs n r h1 h2 h3 h4 with ⟨lf, hlf, _⟩
    exact ⟨lf, hlf⟩
  · intro lock pairs entry r h1 h2 h3 h4
    rcases from_npm_ok_parts lock pairs entry r h1 h2 h3 h4 with ⟨lf, hlf, _⟩
    exact ⟨lf, hlf⟩

theorem c7_collision_witness :
    (nodupKeysBy uciEq c7KdlParsed.packages = true ∧
      ∀ k, imapGet uciEq k c7KdlParsed.packages =
        lastMatch uciEq k c7KdlPairs) ∧
    (∃ lf, Lockfile.from_kdl c7WitDoc = Except.ok lf) := by
  constructor
  · exact c7_collision_last_wins.1 c7WitDoc c7KdlParsed c7KdlPairs rfl rfl
  · exact c7_collision_last_wins.2.2.1 c7WitDoc c7KdlPairs
      (KNode.mk "root" [] none) emptyRootNode rfl
      (fun i h => Option.noConfusion h) rfl rfl

/-- C2 (amended): for a snapshot whose root is a valid root additionally
carrying no `resolved` and no `integrity`, whose entries are valid
non-root entries keyed by their joined paths with case-insensitively
distinct keys, and whose version fits `i64`, parsing the serialized
document succeeds and yields a snapshot equal to the original up to the
ordering of the entries map (and of the dependency maps, which the codec
re-emits sorted). -/
theorem c2_roundtrip_amended (s : Lockfile) (hv : validLockfileB s = true) :
    ∃ t, Lockfile.from_kdl s.to_kdl = Except.ok t ∧ lockUpToOrder t s :=
  ⟨canonLock s, from_kdl_to_kdl s hv, canonLock_upToOrder s hv⟩

theorem c2_roundtrip_witness :
    validLockfileB c2Wit = true ∧
    ∃ t, Lockfile.from_kdl c2Wit.to_kdl = Except.ok t ∧
      lockUpToOrder t c2Wit :=
  ⟨by decide, c2_roundtrip_amended c2Wit (by decide)⟩

/-- C2 counterexample: a snapshot meeting exactly the claim's validity
conditions (root with empty name and path and `is_root`, no non-root
entries) but whose root carries `resolved = some "x"` serializes without
the root's `resolved` leaf, so parsing the result yields a root with
`resolved = none`: the round trip is not the identity up to entry
ordering. -/
theorem c2_roundtrip_counterexample :
    (c2Cex.root.name = "" ∧ c2Cex.root.path = [] ∧
      c2Cex.root.is_root = true ∧ c2Cex.packages = []) ∧
    Lockfile.from_kdl c2Cex.to_kdl = Except.ok c2CexParsed ∧
    c2CexParsed.root.resolved = none ∧ c2Cex.root.resolved = some "x" ∧
    ¬lockUpToOrder c2CexParsed c2Cex := by
  refine ⟨⟨rfl, rfl, rfl, rfl⟩, rfl, rfl, rfl, ?_⟩
  intro hlut
  rcases hlut with ⟨_, ⟨_, _, _, hres, _⟩, _⟩
  exact absurd hres (by decide)

theorem isEmpty_eq_of_perm {α : Type} {l1 l2 : List α} (h : l1.Perm l2) :
    l1.isEmpty = l2.isEmpty := by
  cases l1 with
  | nil => rw [← List.Perm.nil_eq h]
  | cons a t =>
    cases l2 with
    | nil =>
      have hx := List.Perm.nil_eq h.symm
      exact absurd hx (by simp)
    | cons b t2 => rfl

theorem toKdlDeps_eq_of_perm (t : String) {d1 d2 : List (String × String)}
    (hperm : d1.Perm d2) (hnd : nodupKeysBy strEq d1 = true) :
    toKdlDeps t d1 = toKdlDeps t d2 := by
  unfold toKdlDeps
  rw [depSort_map, depSort_map, sortDepPairs_eq_of_perm hperm hnd]

theorem depPart_eq_of_perm (t : String) {d1 d2 : List (String × String)}
    (hperm : d1.Perm d2) (hnd : nodupKeysBy strEq d1 = true) :
    depPart t d1 = depPart t d2 := by
  unfold depPart
  rw [isEmpty_eq_of_perm hperm, toKdlDeps_eq_of_perm t hperm hnd]

theorem to_kdl_eq_of_depsPerm {e1 e2 : LockfileNode} (h : depsPermEq e1 e2)
    (hnd1 : nodupKeysBy strEq e1.dependencies = true)
    (hnd2 : nodupKeysBy strEq e1.dev_dependencies = true)
    (hnd3 : nodupKeysBy strEq e1.peer_dependencies = true)
    (hnd4 : nodupKeysBy strEq e1.optional_dependencies = true) :
    e1.to_kdl = e2.to_kdl := by
  obtain ⟨_, hr, hp, hres, hv, hi, hd1, hd2, hd3, hd4⟩ := h
  unfold LockfileNode.to_kdl serializedChildren
  rw [hr, hp, hres, hv, hi, depPart_eq_of_perm _ hd1 hnd1,
    depPart_eq_of_perm _ hd2 hnd2, depPart_eq_of_perm _ hd3 hnd3,
    depPart_eq_of_perm _ hd4 hnd4]

theorem to_kdl_doc_eq_of_perm (s1 s2 : Lockfile)
    (hv : s1.version = s2.version) (hr : s1.root = s2.root)
    (hperm : s1.packages.Perm s2.packages)
    (hnd : nodupKeysBy uciEq s1.packages = true) :
    s1.to_kdl = s2.to_kdl := by
  rw [to_kdl_doc, to_kdl_doc, hv, hr, sortPackages_eq_of_perm hperm hnd]

theorem toKdlDeps_children_sorted (t : String)
    (deps : List (String × String)) (ns : KDoc)
    (h : (toKdlDeps t deps).children = some ns) : ns.Sorted depNameLe := by
  unfold toKdlDeps at h
  rw [KNode.children] at h
  cases h
  haveI : IsTotal KNode depNameLe :=
    ⟨fun a b => leChars_total a.name.data b.name.data⟩
  haveI : IsTrans KNode depNameLe :=
    ⟨fun a b c h1 h2 => leChars_trans a.name.data b.name.data c.name.data h1 h2⟩
  exact List.sorted_insertionSort depNameLe _

/-- C5: serialization lists `pkg` nodes in ascending order of the
canonical case-insensitive path key, lists each dependency block's
children sorted by name, omits every empty dependency block, and the
emitted document is independent of the insertion order of the underlying
maps (package map and dependency maps alike). -/
theorem c5_serialization_order (s : Lockfile)
    (hroot : s.root.is_root = true)
    (hpkg : ∀ p ∈ s.packages, p.2.is_root = false) :
    pkgNodesOf s.to_kdl =
      ((sortPackages s.packages).map fun p => p.2.to_kdl) ∧
    List.Sorted uciLe ((sortPackages s.packages).map Prod.fst) ∧
    (∀ e : LockfileNode, e.is_root = false →
      docGet "dependencies" (serializedChildren e) =
        (if e.dependencies.isEmpty then none
         else some (toKdlDeps "dependencies" e.dependencies)) ∧
      docGet "dev-dependencies" (serializedChildren e) =
        (if e.dev_dependencies.isEmpty then none
         else some (toKdlDeps "dev-dependencies" e.dev_dependencies)) ∧
      docGet "peer-dependencies" (serializedChildren e) =
        (if e.peer_dependencies.isEmpty then none
         else some (toKdlDeps "peer-dependencies" e.peer_dependencies)) ∧
      docGet "optional-dependencies" (serializedChildren e) =
        (if e.optional_dependencies.isEmpty then none
         else some (toKdlDeps "optional-dependencies"
           e.optional_dependencies))) ∧
    (∀ (t : String) (deps : List (String × String)) (ns : KDoc),
      (toKdlDeps t deps).children = some ns → ns.Sorted depNameLe) ∧
    (∀ s2 : Lockfile, s.version = s2.version → s.root = s2.root →
      s.packages.Perm s2.packages → nodupKeysBy uciEq s.packages = true →
      s.to_kdl = s2.to_kdl) ∧
    (∀ e1 e2 : LockfileNode, depsPermEq e1 e2 →
      nodupKeysBy strEq e1.dependencies = true →
      nodupKeysBy strEq e1.dev_dependencies = true →
      nodupKeysBy strEq e1.peer_dependencies = true →
      nodupKeysBy strEq e1.optional_dependencies = true →
      e1.to_kdl = e2.to_kdl) := by
  refine ⟨pkgNodes_to_kdl s hroot hpkg, ?_, ?_, ?_, ?_, ?_⟩
  · exact List.pairwise_map.mpr (sortPackages_sorted s.packages)
  · intro e he
    exact ⟨children_get_deps e he, children_get_devDeps e he,
      children_get_peerDeps e he, children_get_optDeps e he⟩
  · intro t deps ns h
    exact toKdlDeps_children_sorted t deps ns h
  · intro s2 h1 h2 h3 h4
    exact to_kdl_doc_eq_of_perm s s2 h1 h2 h3 h4
  · intro e1 e2 h h1 h2 h3 h4
    exact to_kdl_eq_of_depsPerm h h1 h2 h3 h4

theorem c5_serialization_order_witness :
    pkgNodesOf c5Wit.to_kdl =
      ((sortPackages c5Wit.packages).map fun p => p.2.to_kdl) ∧
    c5Wit.to_kdl = c5WitB.to_kdl := by
  constructor
  · exact (c5_serialization_order c5Wit rfl (by decide)).1
  · exact (c5_serialization_order c5Wit rfl (by decide)).2.2.2.2.1 c5WitB
      rfl rfl (by decide) (by decide)

end Oro
